import Mathlib

/-!
Verification of the maze generator (`maze_tool.py` / `app_streamlit_maze.py`).

The Python code is shallowly embedded: cells are records of a position and
four passage flags, the 2D `grid` lists are embedded as finite maps
`Int × Int → Option Cell` (an entry is `none` exactly where the Python list
holds `None`), the global Mersenne-Twister generator is embedded as an
arbitrary stream `rng : Nat → Nat` together with an index that counts how
many values have been consumed (`random.seed` makes the stream a function of
the seed, so quantifying over all streams covers all seeds), and the
`while` loops become fuel-indexed recursions whose fuel is proved sufficient.
Fallible Python code (IndexError and similar) is embedded with `Option`.
-/

/-- Passage flags of one cell, the Python list `[N, E, S, W]`
(1 = open passage, 0 = wall). -/
structure Dirs where
  n : Nat
  e : Nat
  s : Nat
  w : Nat
deriving DecidableEq, Repr

/-- The all-walls value `[0, 0, 0, 0]`. -/
def Dirs.closed : Dirs := ⟨0, 0, 0, 0⟩

/-- `ds[d]` for a direction index `d` (indices `≥ 4` never occur in the code). -/
def dirGet (ds : Dirs) : Nat → Nat
  | 0 => ds.n
  | 1 => ds.e
  | 2 => ds.s
  | 3 => ds.w
  | _ + 4 => 0

/-- `ds[d] = v` as a functional update. -/
def dirSet (ds : Dirs) : Nat → Nat → Dirs
  | 0, v => { ds with n := v }
  | 1, v => { ds with e := v }
  | 2, v => { ds with s := v }
  | 3, v => { ds with w := v }
  | _ + 4, _ => ds

/-- `DX = [0, 1, 0, -1]` (N, E, S, W). -/
def DX : Nat → Int
  | 0 => 0
  | 1 => 1
  | 2 => 0
  | 3 => -1
  | _ + 4 => 0

/-- `DY = [-1, 0, 1, 0]` (N, E, S, W). -/
def DY : Nat → Int
  | 0 => -1
  | 1 => 0
  | 2 => 1
  | 3 => 0
  | _ + 4 => 0

/-- One cell dict `{"position": [x, y], "directions": [N, E, S, W]}`. -/
structure Cell where
  pos : Int × Int
  dirs : Dirs
deriving DecidableEq, Repr

/-- `make_cell(x, y)`. -/
def make_cell (x y : Int) : Cell := ⟨(x, y), Dirs.closed⟩

/-- The neighbor coordinate of `p` in direction `d`. -/
def adj (p : Int × Int) (d : Nat) : Int × Int := (p.1 + DX d, p.2 + DY d)

/-- The bounds check `0 <= x < width and 0 <= y < height`. -/
def inB (width height : Int) (p : Int × Int) : Prop :=
  0 ≤ p.1 ∧ p.1 < width ∧ 0 ≤ p.2 ∧ p.2 < height

instance (width height : Int) (p : Int × Int) : Decidable (inB width height p) := by
  unfold inB; infer_instance

/-- `random.choice(l)` where the drawn random value is `r`:
the element at index `r % len(l)` (total, with a junk value on the empty
list, which the code never passes). -/
def pyChoice (r : Nat) (l : List Nat) : Nat := l.getD (r % l.length) 0

/-- The 2D grid list of `maze_tool.py`, as a finite map: `none` where the
Python list holds `None`. -/
def GridMap : Type := Int × Int → Option Cell

/-- State of the carving loop of `generate_maze`: the grid, the explicit
stack, and the number of random values consumed so far. -/
structure CarveState where
  grid : GridMap
  stack : List (Int × Int)
  idx : Nat

/-- The eligible-neighbor enumeration of `generate_maze`:
directions `d` in `range(4)` with the neighbor in bounds and unvisited. -/
def neighborsOf (width height : Int) (g : GridMap) (x y : Int) : List Nat :=
  (List.range 4).filter fun d =>
    decide (inB width height (adj (x, y) d)) && decide (g (adj (x, y) d) = none)

/-- One iteration of the `while stack:` loop of `generate_maze`:
inspect the top of the stack; pop if no eligible neighbor, otherwise pick
one eligible direction with `random.choice`, create the neighbor cell,
carve the symmetric passage-pair and push the neighbor. -/
def carveStep (width height : Int) (rng : Nat → Nat) (st : CarveState) : CarveState :=
  match st.stack with
  | [] => st
  | (x, y) :: rest =>
    let ns := neighborsOf width height st.grid x y
    if ns.isEmpty then
      { st with stack := rest }
    else
      let d := pyChoice (rng st.idx) ns
      let q := adj (x, y) d
      let g1 : GridMap := Function.update st.grid q (some (make_cell q.1 q.2))
      let cur := (g1 (x, y)).getD (make_cell x y)
      let g2 : GridMap :=
        Function.update g1 (x, y) (some { cur with dirs := dirSet cur.dirs d 1 })
      let nc := (g2 q).getD (make_cell q.1 q.2)
      let g3 : GridMap :=
        Function.update g2 q (some { nc with dirs := dirSet nc.dirs ((d + 2) % 4) 1 })
      { grid := g3, stack := q :: st.stack, idx := st.idx + 1 }

/-- The `while stack:` loop, with fuel (the fuel used below is proved to be
an upper bound on the number of iterations, so the embedded loop runs to the
same completion as the Python loop). -/
def carveLoop (width height : Int) (rng : Nat → Nat) : Nat → CarveState → CarveState
  | 0, st => st
  | fuel + 1, st =>
    if st.stack = [] then st
    else carveLoop width height rng fuel (carveStep width height rng st)

/-- The initial carve state: the start cell `(0, 0)` created and pushed. -/
def initCarve (i0 : Nat) : CarveState :=
  { grid := Function.update (fun _ => none) ((0 : Int), (0 : Int)) (some (make_cell 0 0))
    stack := [((0 : Int), (0 : Int))]
    idx := i0 }

/-- `range(n)` of Python for an `int` bound, as a list of `Int`. -/
def intRange (n : Int) : List Int := (List.range n.toNat).map (fun k : Nat => (k : Int))

/-- The flatten step of `generate_maze`: row-major enumeration with the
defensive `if cell is None: cell = make_cell(x, y)` branch. -/
def flattenCells (width height : Int) (g : GridMap) : List Cell :=
  (intRange height).flatMap fun y =>
    (intRange width).map fun x => (g (x, y)).getD (make_cell x y)

/-- `generate_maze(width, height, seed)`. The result is `none` exactly when
Python raises: the initial assignment `grid[0][0] = make_cell(0, 0)` raises
IndexError iff `width <= 0` or `height <= 0`. The returned number is the
updated random-stream index. -/
def generate_maze (width height : Int) (rng : Nat → Nat) (i0 : Nat) :
    Option (List Cell × Nat) :=
  if width ≤ 0 ∨ height ≤ 0 then none
  else
    let st := carveLoop width height rng (2 * (width.toNat * height.toNat)) (initCarve i0)
    some (flattenCells width height st.grid, st.idx)

/-- Number of open symmetric passage-pairs of a cell list: each pair is
counted exactly once, at its north/east endpoint flag. -/
def openPairs (cells : List Cell) : Nat :=
  (cells.map fun c => dirGet c.dirs 0 + dirGet c.dirs 1).sum

/-- One passage-hop between positions of a cell list. -/
def cellStep (cells : List Cell) (p q : Int × Int) : Prop :=
  ∃ c ∈ cells, c.pos = p ∧ ∃ d < 4, dirGet c.dirs d = 1 ∧ q = adj p d

/-- Reachability through open passages of a cell list. -/
def Reach (cells : List Cell) : Int × Int → Int × Int → Prop :=
  Relation.ReflTransGen (cellStep cells)

/-- The symmetry invariant on a cell list: every open flag points to an
in-bounds neighbor that is present in the list and carries the opposite
open flag. -/
def SymCells (width height : Int) (cells : List Cell) : Prop :=
  ∀ c ∈ cells, ∀ d < 4, dirGet c.dirs d = 1 →
    inB width height (adj c.pos d) ∧
      ∃ c' ∈ cells, c'.pos = adj c.pos d ∧ dirGet c'.dirs ((d + 2) % 4) = 1

/-! ### Basic lemmas about directions, neighbors and the random choice -/

theorem dirGet_dirSet (ds : Dirs) {d d' : Nat} (v : Nat) (hd : d < 4) (hd' : d' < 4) :
    dirGet (dirSet ds d v) d' = if d' = d then v else dirGet ds d' := by
  interval_cases d <;> interval_cases d' <;> simp [dirGet, dirSet]

theorem dirGet_dirSet_self (ds : Dirs) {d : Nat} (v : Nat) (hd : d < 4) :
    dirGet (dirSet ds d v) d = v := by
  interval_cases d <;> simp [dirGet, dirSet]

theorem dirGet_closed (d : Nat) : dirGet Dirs.closed d = 0 := by
  match d with
  | 0 => rfl
  | 1 => rfl
  | 2 => rfl
  | 3 => rfl
  | _ + 4 => rfl

theorem dirGet_ge_four (ds : Dirs) {d : Nat} (hd : 4 ≤ d) : dirGet ds d = 0 := by
  match d, hd with
  | _ + 4, _ => rfl

theorem opp_lt_four {d : Nat} (_ : d < 4) : (d + 2) % 4 < 4 := Nat.mod_lt _ (by omega)

theorem opp_opp {d : Nat} (hd : d < 4) : ((d + 2) % 4 + 2) % 4 = d := by
  interval_cases d <;> rfl

theorem adj_adj (p : Int × Int) {d : Nat} (hd : d < 4) : adj (adj p d) ((d + 2) % 4) = p := by
  interval_cases d <;> simp [adj, DX, DY]

theorem adj_ne (p : Int × Int) {d : Nat} (hd : d < 4) : adj p d ≠ p := by
  cases p with
  | mk a b => interval_cases d <;> simp [adj, DX, DY, Prod.ext_iff]


theorem pyChoice_mem (r : Nat) {l : List Nat} (h : l ≠ []) : pyChoice r l ∈ l := by
  have hlen : 0 < l.length := List.length_pos.mpr h
  have hlt : r % l.length < l.length := Nat.mod_lt _ hlen
  unfold pyChoice
  rw [List.getD_eq_getElem l 0 hlt]
  exact List.getElem_mem hlt

theorem mem_neighborsOf {width height : Int} {g : GridMap} {x y : Int} {d : Nat}
    (h : d ∈ neighborsOf width height g x y) :
    d < 4 ∧ inB width height (adj (x, y) d) ∧ g (adj (x, y) d) = none := by
  unfold neighborsOf at h
  rw [List.mem_filter] at h
  obtain ⟨h1, h2⟩ := h
  rw [List.mem_range] at h1
  simp only [Bool.and_eq_true, decide_eq_true_eq] at h2
  exact ⟨h1, h2.1, h2.2⟩

theorem mem_intRange {n : Int} {x : Int} : x ∈ intRange n ↔ 0 ≤ x ∧ x < n := by
  unfold intRange
  simp only [List.mem_map, List.mem_range]
  constructor
  · rintro ⟨k, hk, rfl⟩
    omega
  · rintro ⟨h0, hn⟩
    refine ⟨x.toNat, by omega, by omega⟩

/-! ### Counting open passage-pairs and unvisited entries over the grid -/

/-- Keys of the in-bounds rectangle, as natural-number pairs `(x, y)`. -/
def rectN (width height : Int) : Finset (Nat × Nat) :=
  Finset.range width.toNat ×ˢ Finset.range height.toNat

/-- The integer position of a rectangle key. -/
def keyPos (p : Nat × Nat) : Int × Int := ((p.1 : Int), (p.2 : Int))

/-- North/east open-flag weight of a grid entry. -/
def wPair : Option Cell → Nat
  | none => 0
  | some c => dirGet c.dirs 0 + dirGet c.dirs 1

/-- Indicator of an unvisited grid entry. -/
def wUnvis : Option Cell → Nat
  | none => 1
  | some _ => 0

/-- Total north/east open-flag weight of the in-bounds part of a grid. -/
def pairSum (width height : Int) (g : GridMap) : Nat :=
  ∑ p ∈ rectN width height, wPair (g (keyPos p))

/-- Number of unvisited in-bounds entries of a grid. -/
def unvisSum (width height : Int) (g : GridMap) : Nat :=
  ∑ p ∈ rectN width height, wUnvis (g (keyPos p))

theorem sum_keyPos_update {α : Type} {width height : Int} (f : α → Nat)
    (g : Int × Int → α) {q : Int × Int} (v : α) (hq : inB width height q) :
    (∑ p ∈ rectN width height, f (Function.update g q v (keyPos p))) + f (g q)
      = f v + ∑ p ∈ rectN width height, f (g (keyPos p)) := by
  obtain ⟨h1, h2, h3, h4⟩ := hq
  have hkeymem : (q.1.toNat, q.2.toNat) ∈ rectN width height := by
    unfold rectN
    rw [Finset.mem_product, Finset.mem_range, Finset.mem_range]
    constructor <;> omega
  have e1 : ((q.1.toNat : Int)) = q.1 := by omega
  have e2 : ((q.2.toNat : Int)) = q.2 := by omega
  have hkeyPos : keyPos (q.1.toNat, q.2.toNat) = q := by
    unfold keyPos
    simp only
    rw [e1, e2]
  have hfun : (fun p => f (Function.update g q v (keyPos p)))
      = Function.update (fun p => f (g (keyPos p))) (q.1.toNat, q.2.toNat) (f v) := by
    funext p
    by_cases hp : p = (q.1.toNat, q.2.toNat)
    · subst hp
      rw [hkeyPos, Function.update_same, Function.update_same]
    · rw [Function.update_noteq hp]
      have hne : keyPos p ≠ q := by
        intro hc
        apply hp
        unfold keyPos at hc
        rw [Prod.ext_iff] at hc ⊢
        simp only at hc ⊢
        obtain ⟨hc1, hc2⟩ := hc
        constructor <;> omega
      rw [Function.update_noteq hne]
  have hupd : (∑ p ∈ rectN width height, f (Function.update g q v (keyPos p)))
      = f v + ∑ p ∈ (rectN width height) \ {(q.1.toNat, q.2.toNat)}, f (g (keyPos p)) := by
    rw [Finset.sum_congr rfl (fun p _ => congrFun hfun p)]
    exact Finset.sum_update_of_mem hkeymem _ _
  have hsplit : f (g (keyPos (q.1.toNat, q.2.toNat)))
      + ∑ p ∈ (rectN width height) \ {(q.1.toNat, q.2.toNat)}, f (g (keyPos p))
      = ∑ p ∈ rectN width height, f (g (keyPos p)) := by
    rw [← Finset.erase_eq]
    exact Finset.add_sum_erase _ (fun p => f (g (keyPos p))) hkeymem
  rw [hkeyPos] at hsplit
  omega

/-! ### The carving-loop invariant -/

/-- One passage-hop directly on a grid map. -/
def gridStep (g : GridMap) (p q : Int × Int) : Prop :=
  ∃ c, g p = some c ∧ ∃ d < 4, dirGet c.dirs d = 1 ∧ q = adj p d

/-- Invariant of the carving loop of `generate_maze`. -/
structure CarveInv (width height : Int) (st : CarveState) : Prop where
  visB : ∀ p c, st.grid p = some c → inB width height p
  posOk : ∀ p c, st.grid p = some c → c.pos = p
  flagLe : ∀ p c d, st.grid p = some c → dirGet c.dirs d ≤ 1
  sym : ∀ p c d, st.grid p = some c → d < 4 → dirGet c.dirs d = 1 →
    ∃ c', st.grid (adj p d) = some c' ∧ dirGet c'.dirs ((d + 2) % 4) = 1
  stackVis : ∀ p ∈ st.stack, st.grid p ≠ none
  popClosed : ∀ p c, st.grid p = some c → p ∉ st.stack →
    ∀ d < 4, inB width height (adj p d) → st.grid (adj p d) ≠ none
  origin : st.grid (0, 0) ≠ none
  reach : ∀ p c, st.grid p = some c → Relation.ReflTransGen (gridStep st.grid) (0, 0) p
  pairs : pairSum width height st.grid + 1 + unvisSum width height st.grid
    = width.toNat * height.toNat

/-- Termination measure of the carving loop. -/
def carveMeasure (width height : Int) (st : CarveState) : Nat :=
  2 * unvisSum width height st.grid + st.stack.length

theorem gridStep_mono {g g' : GridMap}
    (h : ∀ p c, g p = some c → ∃ c', g' p = some c' ∧
      ∀ d, dirGet c.dirs d = 1 → dirGet c'.dirs d = 1) :
    ∀ p q, gridStep g p q → gridStep g' p q := by
  rintro p q ⟨c, hc, d, hd, hflag, rfl⟩
  obtain ⟨c', hc', hmono⟩ := h p c hc
  exact ⟨c', hc', d, hd, hmono d hflag, rfl⟩

theorem reach_mono {g g' : GridMap}
    (h : ∀ p c, g p = some c → ∃ c', g' p = some c' ∧
      ∀ d, dirGet c.dirs d = 1 → dirGet c'.dirs d = 1)
    {p q : Int × Int} (hr : Relation.ReflTransGen (gridStep g) p q) :
    Relation.ReflTransGen (gridStep g') p q :=
  Relation.ReflTransGen.mono (fun a b => gridStep_mono h a b) hr

theorem neighborsOf_eq_nil {width height : Int} {g : GridMap} {x y : Int}
    (h : neighborsOf width height g x y = []) :
    ∀ d < 4, inB width height (adj (x, y) d) → g (adj (x, y) d) ≠ none := by
  intro d hd hinB hnone
  have : d ∈ neighborsOf width height g x y := by
    unfold neighborsOf
    rw [List.mem_filter, List.mem_range]
    refine ⟨hd, ?_⟩
    simp only [Bool.and_eq_true, decide_eq_true_eq]
    exact ⟨hinB, hnone⟩
  rw [h] at this
  exact absurd this (List.not_mem_nil d)

theorem carveStep_pop (width height : Int) (rng : Nat → Nat) (g : GridMap)
    (x y : Int) (rest : List (Int × Int)) (i : Nat)
    (h : neighborsOf width height g x y = []) :
    carveStep width height rng ⟨g, (x, y) :: rest, i⟩ = ⟨g, rest, i⟩ := by
  unfold carveStep
  simp only [h, List.isEmpty_nil, if_true]

theorem carveStep_push (width height : Int) (rng : Nat → Nat) (g : GridMap)
    (x y : Int) (rest : List (Int × Int)) (i : Nat)
    (hne : neighborsOf width height g x y ≠ [])
    (cur : Cell) (hcur : g (x, y) = some cur)
    (d : Nat) (hd : d = pyChoice (rng i) (neighborsOf width height g x y)) :
    carveStep width height rng ⟨g, (x, y) :: rest, i⟩ =
      ⟨Function.update
          (Function.update g (x, y) (some ⟨cur.pos, dirSet cur.dirs d 1⟩))
          (adj (x, y) d)
          (some ⟨adj (x, y) d, dirSet Dirs.closed ((d + 2) % 4) 1⟩),
        adj (x, y) d :: (x, y) :: rest,
        i + 1⟩ := by
  have hd4 : d < 4 := (mem_neighborsOf (hd ▸ pyChoice_mem (rng i) hne)).1
  have hq : adj (x, y) d ≠ (x, y) := adj_ne (x, y) hd4
  have hb : (neighborsOf width height g x y).isEmpty = false := by
    rw [List.isEmpty_eq_false]
    exact hne
  unfold carveStep
  simp only [hb, Bool.false_eq_true, if_false]
  rw [← hd]
  simp only [hcur, Option.getD_some, Function.update_noteq (Ne.symm hq),
    Function.update_noteq hq, Function.update_same, make_cell, Prod.mk.eta]
  have e3 : ∀ v : Option Cell,
      Function.update (Function.update
          (Function.update g (adj (x, y) d) (some ⟨adj (x, y) d, Dirs.closed⟩))
          (x, y) (some ⟨cur.pos, dirSet cur.dirs d 1⟩))
        (adj (x, y) d) v
      = Function.update
          (Function.update g (x, y) (some ⟨cur.pos, dirSet cur.dirs d 1⟩))
          (adj (x, y) d) v := by
    intro v
    funext z
    by_cases hz : z = adj (x, y) d
    · subst hz
      rw [Function.update_same, Function.update_same]
    · rw [Function.update_noteq hz, Function.update_noteq hz]
      by_cases hz2 : z = (x, y)
      · subst hz2
        rw [Function.update_same, Function.update_same]
      · rw [Function.update_noteq hz2, Function.update_noteq hz2, Function.update_noteq hz]
  rw [e3]

theorem flagLe_dirSet {ds : Dirs} (h : ∀ e, dirGet ds e ≤ 1) {d0 : Nat} (hd0 : d0 < 4) :
    ∀ e, dirGet (dirSet ds d0 1) e ≤ 1 := by
  intro e
  by_cases he : e < 4
  · rw [dirGet_dirSet ds 1 hd0 he]
    split_ifs
    · exact le_refl 1
    · exact h e
  · rw [dirGet_ge_four _ (by omega)]
    omega

theorem flagLe_closed : ∀ e, dirGet Dirs.closed e ≤ 1 := by
  intro e
  rw [dirGet_closed]
  omega

theorem pair_weight_key {ds : Dirs} {d : Nat} (hd4 : d < 4) (h0 : dirGet ds d = 0) :
    (dirGet (dirSet Dirs.closed ((d + 2) % 4) 1) 0 + dirGet (dirSet Dirs.closed ((d + 2) % 4) 1) 1)
      + (dirGet (dirSet ds d 1) 0 + dirGet (dirSet ds d 1) 1)
      = 1 + (dirGet ds 0 + dirGet ds 1) := by
  interval_cases d <;> simp [dirGet, dirSet, Dirs.closed] at h0 ⊢ <;> omega

theorem carveStep_preserves (width height : Int) (rng : Nat → Nat) (st : CarveState)
    (inv : CarveInv width height st) :
    CarveInv width height (carveStep width height rng st) ∧
      (st.stack ≠ [] →
        carveMeasure width height (carveStep width height rng st) + 1
          ≤ carveMeasure width height st) := by
  obtain ⟨g, stack, i⟩ := st
  cases stack with
  | nil =>
    constructor
    · have : carveStep width height rng ⟨g, [], i⟩ = ⟨g, [], i⟩ := rfl
      rw [this]
      exact inv
    · intro h
      exact absurd rfl h
  | cons head rest =>
    obtain ⟨x, y⟩ := head
    by_cases hns : neighborsOf width height g x y = []
    -- ------------------------------------------------------------ pop case
    · rw [carveStep_pop width height rng g x y rest i hns]
      constructor
      · refine ⟨inv.visB, inv.posOk, inv.flagLe, inv.sym, ?_, ?_, inv.origin, inv.reach,
          inv.pairs⟩
        · intro p hp
          exact inv.stackVis p (List.mem_cons_of_mem _ hp)
        · intro p c hp hnotin e he heB
          by_cases hpxy : p = (x, y)
          · subst hpxy
            exact neighborsOf_eq_nil hns e he heB
          · have : p ∉ (x, y) :: rest := by
              intro hmem
              rcases List.mem_cons.mp hmem with h1 | h2
              · exact hpxy h1
              · exact hnotin h2
            exact inv.popClosed p c hp this e he heB
      · intro _
        unfold carveMeasure
        simp only [List.length_cons]
        omega
    -- ------------------------------------------------------------ push case
    · have hmem := pyChoice_mem (rng i) hns
      obtain ⟨hd4, hqB, hqnone⟩ := mem_neighborsOf hmem
      have hcurne := inv.stackVis (x, y) (List.mem_cons_self _ _)
      obtain ⟨cur, hcur⟩ := Option.ne_none_iff_exists'.mp hcurne
      dsimp only at hcur
      rw [carveStep_push width height rng g x y rest i hns cur hcur _ rfl]
      have hq : adj (x, y) (pyChoice (rng i) (neighborsOf width height g x y)) ≠ (x, y) :=
        adj_ne (x, y) hd4
      set d := pyChoice (rng i) (neighborsOf width height g x y) with hdd
      set Q := adj (x, y) d with hQ
      set curN : Cell := ⟨cur.pos, dirSet cur.dirs d 1⟩ with hcurN
      set ncN : Cell := ⟨Q, dirSet Dirs.closed ((d + 2) % 4) 1⟩ with hncN
      set G : GridMap :=
        Function.update (Function.update g (x, y) (some curN)) Q (some ncN) with hGdef
      have hG : ∀ z, G z = if z = Q then some ncN else if z = (x, y) then some curN
          else g z := by
        intro z
        rw [hGdef]
        by_cases h1 : z = Q
        · subst h1
          rw [Function.update_same, if_pos rfl]
        · rw [Function.update_noteq h1, if_neg h1]
          by_cases h2 : z = (x, y)
          · subst h2
            rw [Function.update_same, if_pos rfl]
          · rw [Function.update_noteq h2, if_neg h2]
      have hGsome : ∀ z, g z ≠ none → G z ≠ none := by
        intro z hz
        rw [hG]
        split_ifs
        · exact Option.some_ne_none _
        · exact Option.some_ne_none _
        · exact hz
      have hxyB : inB width height (x, y) := inv.visB (x, y) cur hcur
      have hposcur : cur.pos = (x, y) := inv.posOk (x, y) cur hcur
      have hcurd0 : dirGet cur.dirs d = 0 := by
        have h1 := inv.flagLe (x, y) cur d hcur
        by_contra hne0
        have h2 : dirGet cur.dirs d = 1 := by omega
        obtain ⟨c2, hc2, _⟩ := inv.sym (x, y) cur d hcur hd4 h2
        dsimp only at hc2
        rw [← hQ, hqnone] at hc2
        cases hc2
      have hmono : ∀ p c, g p = some c → ∃ c', G p = some c' ∧
          ∀ e, dirGet c.dirs e = 1 → dirGet c'.dirs e = 1 := by
        intro p c hp
        rw [hG]
        by_cases h1 : p = Q
        · rw [h1, hqnone] at hp
          cases hp
        · rw [if_neg h1]
          by_cases h2 : p = (x, y)
          · subst h2
            rw [hcur] at hp
            obtain rfl := Option.some.inj hp
            refine ⟨curN, by rw [if_pos rfl], ?_⟩
            intro e he1
            have he4 : e < 4 := by
              by_contra hc
              rw [dirGet_ge_four _ (by omega)] at he1
              exact absurd he1 (by omega)
            rw [hcurN]
            simp only
            rw [dirGet_dirSet cur.dirs 1 hd4 he4]
            split_ifs
            · rfl
            · exact he1
          · rw [if_neg h2]
            exact ⟨c, hp, fun e he1 => he1⟩
      -- the two sum decompositions
      have hgmidQ : Function.update g (x, y) (some curN) Q = none := by
        rw [Function.update_noteq hq, hqnone]
      have E2p : pairSum width height (Function.update g (x, y) (some curN))
          + wPair (g (x, y)) = wPair (some curN) + pairSum width height g :=
        sum_keyPos_update wPair g (some curN) hxyB
      have E1p : pairSum width height G + wPair (Function.update g (x, y) (some curN) Q)
          = wPair (some ncN) + pairSum width height (Function.update g (x, y) (some curN)) := by
        rw [hGdef]
        exact sum_keyPos_update wPair (Function.update g (x, y) (some curN)) (some ncN) hqB
      have E2u : unvisSum width height (Function.update g (x, y) (some curN))
          + wUnvis (g (x, y)) = wUnvis (some curN) + unvisSum width height g :=
        sum_keyPos_update wUnvis g (some curN) hxyB
      have E1u : unvisSum width height G + wUnvis (Function.update g (x, y) (some curN) Q)
          = wUnvis (some ncN) + unvisSum width height (Function.update g (x, y) (some curN)) := by
        rw [hGdef]
        exact sum_keyPos_update wUnvis (Function.update g (x, y) (some curN)) (some ncN) hqB
      rw [hgmidQ] at E1p E1u
      rw [hcur] at E2p E2u
      have hkey : wPair (some ncN) + wPair (some curN) = 1 + wPair (some cur) := by
        rw [hncN, hcurN]
        simp only [wPair]
        exact pair_weight_key hd4 hcurd0
      have hWnone : wPair (none : Option Cell) = 0 := rfl
      have hUnone : wUnvis (none : Option Cell) = 1 := rfl
      have hUsome : ∀ c : Cell, wUnvis (some c) = 0 := fun _ => rfl
      simp only [hWnone] at E1p
      simp only [hUnone] at E1u
      simp only [hUsome] at E1u E2u
      -- numeric summary
      have hPairsNew : pairSum width height G = 1 + pairSum width height g := by omega
      have hUnvisNew : unvisSum width height G + 1 = unvisSum width height g := by omega
      constructor
      · refine ⟨?_, ?_, ?_, ?_, ?_, ?_, ?_, ?_, ?_⟩
        -- visB
        · intro p c hp
          dsimp only at hp
          rw [hG] at hp
          split_ifs at hp with h1 h2
          · exact h1 ▸ hqB
          · exact h2 ▸ hxyB
          · exact inv.visB p c hp
        -- posOk
        · intro p c hp
          dsimp only at hp
          rw [hG] at hp
          split_ifs at hp with h1 h2
          · obtain rfl := Option.some.inj hp
            rw [hncN, h1]
          · obtain rfl := Option.some.inj hp
            rw [hcurN]
            simp only
            rw [hposcur, h2]
          · exact inv.posOk p c hp
        -- flagLe
        · intro p c e hp
          dsimp only at hp
          rw [hG] at hp
          split_ifs at hp with h1 h2
          · obtain rfl := Option.some.inj hp
            exact flagLe_dirSet flagLe_closed (opp_lt_four hd4) e
          · obtain rfl := Option.some.inj hp
            exact flagLe_dirSet (fun e' => inv.flagLe (x, y) cur e' hcur) hd4 e
          · exact inv.flagLe p c e hp
        -- sym
        · intro p c e hp he hflag
          dsimp only at hp ⊢
          rw [hG] at hp
          split_ifs at hp with h1 h2
          -- new cell at Q
          · subst h1
            obtain rfl := Option.some.inj hp
            rw [hncN] at hflag
            simp only at hflag
            rw [dirGet_dirSet Dirs.closed 1 (opp_lt_four hd4) he] at hflag
            by_cases heo : e = (d + 2) % 4
            · subst heo
              refine ⟨curN, ?_, ?_⟩
              · rw [hQ, adj_adj (x, y) hd4, hG, if_neg (Ne.symm hq), if_pos rfl]
              · rw [opp_opp hd4, hcurN]
                dsimp only
                exact dirGet_dirSet_self cur.dirs 1 hd4
            · rw [if_neg heo, dirGet_closed] at hflag
              exact absurd hflag (by omega)
          -- updated current cell at (x, y)
          · subst h2
            obtain rfl := Option.some.inj hp
            rw [hcurN] at hflag
            simp only at hflag
            rw [dirGet_dirSet cur.dirs 1 hd4 he] at hflag
            by_cases hed : e = d
            · subst hed
              refine ⟨ncN, ?_, ?_⟩
              · rw [hG, if_pos rfl]
              · rw [hncN]
                simp only
                exact dirGet_dirSet_self Dirs.closed 1 (opp_lt_four hd4)
            · rw [if_neg hed] at hflag
              obtain ⟨c2, hc2, hflag2⟩ := inv.sym (x, y) cur e hcur he hflag
              dsimp only at hc2
              have hne1 : adj (x, y) e ≠ Q := by
                intro hcon
                rw [hcon, hqnone] at hc2
                cases hc2
              have hne2 : adj (x, y) e ≠ (x, y) := adj_ne (x, y) he
              refine ⟨c2, ?_, hflag2⟩
              rw [hG, if_neg hne1, if_neg hne2]
              exact hc2
          -- untouched cells
          · obtain ⟨c2, hc2, hflag2⟩ := inv.sym p c e hp he hflag
            dsimp only at hc2
            have hne1 : adj p e ≠ Q := by
              intro hcon
              rw [hcon, hqnone] at hc2
              cases hc2
            by_cases hexy : adj p e = (x, y)
            · have hc2cur : c2 = cur := by
                rw [hexy, hcur] at hc2
                exact (Option.some.inj hc2).symm
              rw [hc2cur] at hflag2
              refine ⟨curN, ?_, ?_⟩
              · rw [hG, if_neg hne1, if_pos hexy]
              · dsimp only
                rw [dirGet_dirSet cur.dirs 1 hd4 (opp_lt_four he)]
                split_ifs
                · rfl
                · exact hflag2
            · refine ⟨c2, ?_, hflag2⟩
              rw [hG, if_neg hne1, if_neg hexy]
              exact hc2
        -- stackVis
        · intro p hp
          dsimp only at hp ⊢
          rcases List.mem_cons.mp hp with h1 | hp2
          · subst h1
            rw [hG, if_pos rfl]
            exact Option.some_ne_none _
          · rcases List.mem_cons.mp hp2 with h2 | hp3
            · subst h2
              rw [hG, if_neg (Ne.symm hq), if_pos rfl]
              exact Option.some_ne_none _
            · exact hGsome p (inv.stackVis p (List.mem_cons_of_mem _ hp3))
        -- popClosed
        · intro p c hp hnotin e he heB
          dsimp only at hp hnotin ⊢
          have hpQ : p ≠ Q := fun hc => hnotin (hc ▸ List.mem_cons_self _ _)
          have hpxy : p ≠ (x, y) := fun hc =>
            hnotin (hc ▸ List.mem_cons_of_mem _ (List.mem_cons_self _ _))
          have hprest : p ∉ rest := fun hc =>
            hnotin (List.mem_cons_of_mem _ (List.mem_cons_of_mem _ hc))
          rw [hG, if_neg hpQ, if_neg hpxy] at hp
          have hnotold : p ∉ (x, y) :: rest := by
            intro hmem
            rcases List.mem_cons.mp hmem with h1 | h2
            · exact hpxy h1
            · exact hprest h2
          exact hGsome _ (inv.popClosed p c hp hnotold e he heB)
        -- origin
        · dsimp only
          exact hGsome _ inv.origin
        -- reach
        · intro p c hp
          dsimp only at hp ⊢
          rw [hG] at hp
          split_ifs at hp with h1 h2
          · subst h1
            have hreachxy := reach_mono hmono (inv.reach (x, y) cur hcur)
            refine Relation.ReflTransGen.tail hreachxy ?_
            refine ⟨curN, ?_, d, hd4, ?_, hQ⟩
            · rw [hG, if_neg (Ne.symm hq), if_pos rfl]
            · rw [hcurN]
              simp only
              exact dirGet_dirSet_self cur.dirs 1 hd4
          · subst h2
            exact reach_mono hmono (inv.reach (x, y) cur hcur)
          · exact reach_mono hmono (inv.reach p c hp)
        -- pairs
        · have hold := inv.pairs
          dsimp only at hold
          dsimp only
          omega
      -- measure decrease
      · intro _
        unfold carveMeasure
        simp only [List.length_cons]
        omega

theorem carveLoop_spec (width height : Int) (rng : Nat → Nat) :
    ∀ (fuel : Nat) (st : CarveState), CarveInv width height st →
      carveMeasure width height st ≤ fuel →
      CarveInv width height (carveLoop width height rng fuel st) ∧
        (carveLoop width height rng fuel st).stack = [] := by
  intro fuel
  induction fuel with
  | zero =>
    intro st inv hm
    have hnil : st.stack = [] := by
      unfold carveMeasure at hm
      exact List.length_eq_zero.mp (by omega)
    refine ⟨inv, ?_⟩
    simp only [carveLoop]
    exact hnil
  | succ fuel ih =>
    intro st inv hm
    by_cases hst : st.stack = []
    · simp only [carveLoop, hst, if_true]
      exact ⟨inv, trivial⟩
    · simp only [carveLoop, hst, if_false]
      obtain ⟨inv2, hdec⟩ := carveStep_preserves width height rng st inv
      exact ih _ inv2 (by have := hdec hst; omega)

theorem sum_wUnvis_none (width height : Int) :
    (∑ _p ∈ rectN width height, wUnvis (none : Option Cell))
      = width.toNat * height.toNat := by
  rw [Finset.sum_const, smul_eq_mul,
    show wUnvis (none : Option Cell) = 1 from rfl, mul_one]
  unfold rectN
  rw [Finset.card_product, Finset.card_range, Finset.card_range]

theorem unvisSum_init (width height : Int) (hw : 1 ≤ width) (hh : 1 ≤ height) (i0 : Nat) :
    unvisSum width height (initCarve i0).grid + 1 = width.toNat * height.toNat := by
  have h00 : inB width height ((0 : Int), (0 : Int)) := ⟨le_refl 0, hw, le_refl 0, hh⟩
  have h := @sum_keyPos_update _ width height wUnvis
    (fun _ => none) ((0 : Int), (0 : Int)) (some (make_cell 0 0)) h00
  simp only [] at h
  have hempty := sum_wUnvis_none width height
  show (∑ p ∈ rectN width height, wUnvis (Function.update (fun _ => (none : Option Cell))
      ((0 : Int), (0 : Int)) (some (make_cell 0 0)) (keyPos p))) + 1
    = width.toNat * height.toNat
  have hn : wUnvis (none : Option Cell) = 1 := rfl
  have hs : wUnvis (some (make_cell 0 0)) = 0 := rfl
  omega

theorem carveInv_init (width height : Int) (hw : 1 ≤ width) (hh : 1 ≤ height) (i0 : Nat) :
    CarveInv width height (initCarve i0) := by
  have h00 : inB width height ((0 : Int), (0 : Int)) := ⟨le_refl 0, hw, le_refl 0, hh⟩
  have hgrid : ∀ z, (initCarve i0).grid z
      = if z = ((0 : Int), (0 : Int)) then some (make_cell 0 0) else none := by
    intro z
    show Function.update (fun _ => (none : Option Cell)) ((0 : Int), (0 : Int))
      (some (make_cell 0 0)) z = _
    by_cases hz : z = ((0 : Int), (0 : Int))
    · subst hz
      rw [Function.update_same, if_pos rfl]
    · rw [Function.update_noteq hz, if_neg hz]
  have hstack : (initCarve i0).stack = [((0 : Int), (0 : Int))] := rfl
  refine ⟨?_, ?_, ?_, ?_, ?_, ?_, ?_, ?_, ?_⟩
  · intro p c hp
    rw [hgrid] at hp
    split_ifs at hp with h1
    · exact h1 ▸ h00
  · intro p c hp
    rw [hgrid] at hp
    split_ifs at hp with h1
    · obtain rfl := Option.some.inj hp
      rw [h1]
      rfl
  · intro p c e hp
    rw [hgrid] at hp
    split_ifs at hp with h1
    · obtain rfl := Option.some.inj hp
      exact flagLe_closed e
  · intro p c e hp he hflag
    rw [hgrid] at hp
    split_ifs at hp with h1
    · obtain rfl := Option.some.inj hp
      rw [show (make_cell 0 0).dirs = Dirs.closed from rfl, dirGet_closed] at hflag
      cases hflag
  · intro p hp
    rw [hstack, List.mem_singleton] at hp
    subst hp
    rw [hgrid, if_pos rfl]
    exact Option.some_ne_none _
  · intro p c hp hnotin e he heB
    rw [hgrid] at hp
    split_ifs at hp with h1
    · exfalso
      apply hnotin
      rw [hstack, h1]
      exact List.mem_singleton_self _
  · rw [hgrid, if_pos rfl]
    exact Option.some_ne_none _
  · intro p c hp
    rw [hgrid] at hp
    split_ifs at hp with h1
    · rw [h1]
  · have h := @sum_keyPos_update _ width height wPair
      (fun _ => none) ((0 : Int), (0 : Int)) (some (make_cell 0 0)) h00
    simp only [] at h
    have hempty : (∑ _p ∈ rectN width height, wPair (none : Option Cell)) = 0 := by
      rw [Finset.sum_const, smul_eq_mul]
      rfl
    have hu := unvisSum_init width height hw hh i0
    show (∑ p ∈ rectN width height, wPair (Function.update (fun _ => (none : Option Cell))
        ((0 : Int), (0 : Int)) (some (make_cell 0 0)) (keyPos p))) + 1
      + unvisSum width height (initCarve i0).grid = width.toNat * height.toNat
    have hn : wPair (none : Option Cell) = 0 := rfl
    have hs : wPair (some (make_cell 0 0)) = 0 := rfl
    omega

theorem carveInv_allVisited (width height : Int) (st : CarveState)
    (inv : CarveInv width height st) (hstack : st.stack = []) :
    ∀ p, inB width height p → st.grid p ≠ none := by
  have hclose : ∀ p c, st.grid p = some c → ∀ e, e < 4 →
      inB width height (adj p e) → st.grid (adj p e) ≠ none := by
    intro p c hp e he heB
    refine inv.popClosed p c hp ?_ e he heB
    rw [hstack]
    exact List.not_mem_nil p
  have hstep : ∀ p, st.grid p ≠ none → ∀ e, e < 4 →
      inB width height (adj p e) → st.grid (adj p e) ≠ none := by
    intro p hp e he heB
    obtain ⟨c, hc⟩ := Option.ne_none_iff_exists'.mp hp
    exact hclose p c hc e he heB
  have hcol : ∀ b : Nat, ((b : Int) < height) → st.grid (0, (b : Int)) ≠ none := by
    intro b
    induction b with
    | zero =>
      intro _
      exact inv.origin
    | succ k ihk =>
      intro hk
      have hkh : (k : Int) < height := by push_cast at hk ⊢; omega
      have hprev := ihk hkh
      have hadj : adj (0, (k : Int)) 2 = (0, ((k + 1 : Nat) : Int)) := by
        simp only [adj, DX, DY]
        constructor
      have hB : inB width height (0, ((k + 1 : Nat) : Int)) := by
        obtain ⟨c, hc⟩ := Option.ne_none_iff_exists'.mp hprev
        obtain ⟨h01, h02, h03, h04⟩ := inv.visB _ _ hc
        refine ⟨by omega, by omega, by push_cast; omega, by push_cast at hk ⊢; omega⟩
      have := hstep (0, (k : Int)) hprev 2 (by omega) (hadj ▸ hB)
      rw [hadj] at this
      exact this
  have hall : ∀ a b : Nat, ((a : Int) < width) → ((b : Int) < height) →
      st.grid ((a : Int), (b : Int)) ≠ none := by
    intro a
    induction a with
    | zero =>
      intro b _ hb
      exact hcol b hb
    | succ k ihk =>
      intro b hka hb
      have hkw : (k : Int) < width := by push_cast at hka ⊢; omega
      have hprev := ihk b hkw hb
      have hadj : adj ((k : Int), (b : Int)) 1 = (((k + 1 : Nat) : Int), (b : Int)) := by
        simp only [adj, DX, DY]
        constructor
      have hB : inB width height (((k + 1 : Nat) : Int), (b : Int)) := by
        obtain ⟨c, hc⟩ := Option.ne_none_iff_exists'.mp hprev
        obtain ⟨h01, h02, h03, h04⟩ := inv.visB _ _ hc
        refine ⟨by push_cast; omega, by push_cast at hka ⊢; omega, by omega, by omega⟩
      have := hstep ((k : Int), (b : Int)) hprev 1 (by omega) (hadj ▸ hB)
      rw [hadj] at this
      exact this
  intro p hp
  obtain ⟨h1, h2, h3, h4⟩ := hp
  have hpa : p = ((p.1.toNat : Int), (p.2.toNat : Int)) := by
    rw [Prod.ext_iff]
    constructor <;> simp <;> omega
  rw [hpa]
  exact hall p.1.toNat p.2.toNat (by omega) (by omega)

/-! ### Transfer from the final grid to the flattened cell list -/

theorem length_flatMap_const {α β : Type} (l : List α) (f : α → List β) (n : Nat)
    (h : ∀ a ∈ l, (f a).length = n) : (l.flatMap f).length = l.length * n := by
  induction l with
  | nil => simp
  | cons a t ih =>
    rw [List.flatMap_cons, List.length_append, h a (List.mem_cons_self a t),
      ih (fun b hb => h b (List.mem_cons_of_mem a hb)), List.length_cons]
    ring

theorem intRange_length (n : Int) : (intRange n).length = n.toNat := by
  unfold intRange
  rw [List.length_map, List.length_range]

theorem flattenCells_length (width height : Int) (g : GridMap) :
    (flattenCells width height g).length = width.toNat * height.toNat := by
  unfold flattenCells
  rw [length_flatMap_const _ _ width.toNat
    (fun a _ => by rw [List.length_map, intRange_length]), intRange_length]
  ring

theorem mem_flattenCells {width height : Int} {g : GridMap}
    (hall : ∀ p, inB width height p → g p ≠ none) {c : Cell} :
    c ∈ flattenCells width height g ↔ ∃ p, inB width height p ∧ g p = some c := by
  unfold flattenCells
  rw [List.mem_flatMap]
  constructor
  · rintro ⟨y, hy, hc⟩
    rw [List.mem_map] at hc
    obtain ⟨x, hx, hxc⟩ := hc
    rw [mem_intRange] at hy hx
    have hB : inB width height (x, y) := ⟨hx.1, hx.2, hy.1, hy.2⟩
    obtain ⟨c0, hc0⟩ := Option.ne_none_iff_exists'.mp (hall (x, y) hB)
    rw [hc0] at hxc
    simp only [Option.getD_some] at hxc
    exact ⟨(x, y), hB, by rw [hc0, hxc]⟩
  · rintro ⟨p, hB, hc⟩
    refine ⟨p.2, ?_, ?_⟩
    · rw [mem_intRange]
      exact ⟨hB.2.2.1, hB.2.2.2⟩
    · rw [List.mem_map]
      refine ⟨p.1, ?_, ?_⟩
      · rw [mem_intRange]
        exact ⟨hB.1, hB.2.1⟩
      · rw [show (p.1, p.2) = p from rfl, hc]
        rfl

theorem sum_map_flatMap {α β : Type} (l : List α) (f : α → List β) (m : β → Nat) :
    ((l.flatMap f).map m).sum = (l.map (fun a => ((f a).map m).sum)).sum := by
  induction l with
  | nil => simp
  | cons a t ih =>
    rw [List.flatMap_cons, List.map_append, List.sum_append, ih, List.map_cons, List.sum_cons]

theorem listSum_range (n : Nat) (f : Nat → Nat) :
    ((List.range n).map f).sum = ∑ k ∈ Finset.range n, f k := by
  induction n with
  | zero => simp
  | succ m ih =>
    rw [List.range_succ, List.map_append, List.sum_append, Finset.sum_range_succ, ih]
    simp

theorem openPairs_flattenCells {width height : Int} {g : GridMap}
    (hall : ∀ p, inB width height p → g p ≠ none) :
    openPairs (flattenCells width height g) = pairSum width height g := by
  unfold openPairs flattenCells
  rw [sum_map_flatMap]
  have hinner : ∀ y ∈ intRange height,
      ((((intRange width).map fun x => (g (x, y)).getD (make_cell x y)).map
        fun c => dirGet c.dirs 0 + dirGet c.dirs 1).sum)
      = (((intRange width).map fun x => wPair (g (x, y))).sum) := by
    intro y hy
    rw [List.map_map]
    congr 1
    apply List.map_congr_left
    intro x hx
    rw [mem_intRange] at hy hx
    have hB : inB width height (x, y) := ⟨hx.1, hx.2, hy.1, hy.2⟩
    obtain ⟨c0, hc0⟩ := Option.ne_none_iff_exists'.mp (hall (x, y) hB)
    simp only [Function.comp_apply, hc0, Option.getD_some]
    rfl
  rw [List.map_congr_left hinner]
  unfold pairSum rectN
  rw [Finset.sum_product]
  rw [Finset.sum_comm]
  unfold intRange
  rw [List.map_map, listSum_range]
  apply Finset.sum_congr rfl
  intro b _
  simp only [Function.comp_apply]
  rw [List.map_map, listSum_range]
  apply Finset.sum_congr rfl
  intro a _
  simp only [Function.comp_apply]
  rfl

theorem unvisSum_eq_zero {width height : Int} {g : GridMap}
    (hall : ∀ p, inB width height p → g p ≠ none) :
    unvisSum width height g = 0 := by
  unfold unvisSum
  apply Finset.sum_eq_zero
  intro p hp
  have hB : inB width height (keyPos p) := by
    unfold rectN at hp
    rw [Finset.mem_product, Finset.mem_range, Finset.mem_range] at hp
    unfold keyPos inB
    dsimp only
    exact ⟨by omega, by omega, by omega, by omega⟩
  obtain ⟨c, hc⟩ := Option.ne_none_iff_exists'.mp (hall _ hB)
  rw [hc]
  rfl

theorem carve_final (width height : Int) (rng : Nat → Nat) (i0 : Nat)
    (hw : 1 ≤ width) (hh : 1 ≤ height) :
    CarveInv width height
        (carveLoop width height rng (2 * (width.toNat * height.toNat)) (initCarve i0)) ∧
      (carveLoop width height rng (2 * (width.toNat * height.toNat)) (initCarve i0)).stack
        = [] := by
  apply carveLoop_spec
  · exact carveInv_init width height hw hh i0
  · have hu := unvisSum_init width height hw hh i0
    unfold carveMeasure
    have hlen : (initCarve i0).stack.length = 1 := rfl
    omega

theorem generate_maze_eq (width height : Int) (rng : Nat → Nat) (i0 : Nat)
    (hw : 1 ≤ width) (hh : 1 ≤ height) :
    generate_maze width height rng i0 = some (flattenCells width height
        (carveLoop width height rng (2 * (width.toNat * height.toNat)) (initCarve i0)).grid,
      (carveLoop width height rng (2 * (width.toNat * height.toNat)) (initCarve i0)).idx) := by
  unfold generate_maze
  rw [if_neg (by omega)]

theorem generate_maze_props (width height : Int) (rng : Nat → Nat) (i0 : Nat)
    (hw : 1 ≤ width) (hh : 1 ≤ height) :
    ∃ cells iEnd, generate_maze width height rng i0 = some (cells, iEnd) ∧
      cells.length = width.toNat * height.toNat ∧
      openPairs cells = width.toNat * height.toNat - 1 ∧
      SymCells width height cells ∧
      (∀ c ∈ cells, Reach cells (0, 0) c.pos) := by
  obtain ⟨inv, hstack⟩ := carve_final width height rng i0 hw hh
  have hall := carveInv_allVisited width height _ inv hstack
  refine ⟨_, _, generate_maze_eq width height rng i0 hw hh, ?_, ?_, ?_, ?_⟩
  · exact flattenCells_length width height _
  · rw [openPairs_flattenCells hall]
    have hp := inv.pairs
    have hu := unvisSum_eq_zero hall
    omega
  · intro c hc d hd hflag
    obtain ⟨p, hB, hgp⟩ := (mem_flattenCells hall).mp hc
    have hcp : c.pos = p := inv.posOk p c hgp
    obtain ⟨c2, hgc2, hflag2⟩ := inv.sym p c d hgp hd hflag
    have hB2 := inv.visB _ _ hgc2
    refine ⟨by rw [hcp]; exact hB2, c2, (mem_flattenCells hall).mpr ⟨_, hB2, hgc2⟩, ?_, hflag2⟩
    rw [inv.posOk _ _ hgc2, hcp]
  · intro c hc
    obtain ⟨p, hB, hgp⟩ := (mem_flattenCells hall).mp hc
    have hcp : c.pos = p := inv.posOk p c hgp
    rw [hcp]
    refine Relation.ReflTransGen.mono ?_ (inv.reach p c hgp)
    rintro a b ⟨c2, hc2, d, hd, hflag, rfl⟩
    exact ⟨c2, (mem_flattenCells hall).mpr ⟨a, inv.visB _ _ hc2, hc2⟩,
      inv.posOk _ _ hc2, d, hd, hflag, rfl⟩

theorem reach_all_pairs {width height : Int} {cells : List Cell}
    (hsym : SymCells width height cells)
    (h0 : ∀ c ∈ cells, Reach cells (0, 0) c.pos) :
    ∀ c ∈ cells, ∀ c' ∈ cells, Reach cells c.pos c'.pos := by
  have hstepsymm : Symmetric (cellStep cells) := by
    rintro p q ⟨c, hc, hcp, d, hd, hflag, rfl⟩
    obtain ⟨hB, c2, hc2, hc2p, hflag2⟩ := hsym c hc d hd hflag
    refine ⟨c2, hc2, by rw [hc2p, hcp], (d + 2) % 4, opp_lt_four hd, hflag2, ?_⟩
    rw [adj_adj p hd]
  have hrs : Symmetric (Reach cells) := Relation.ReflTransGen.symmetric hstepsymm
  intro c hc c' hc'
  exact Relation.ReflTransGen.trans (hrs (h0 c hc)) (h0 c' hc')

/-- C1: for every `width >= 1`, `height >= 1` and any seed (any random
stream), `generate_maze` returns exactly `width*height` cells, exactly
`width*height - 1` open symmetric passage-pairs, and every cell is reachable
from every other through open passages (the passage graph is a spanning
tree). -/
theorem generate_maze_spanning_tree (width height : Int) (rng : Nat → Nat) (i0 : Nat)
    (hw : 1 ≤ width) (hh : 1 ≤ height) :
    ∃ cells iEnd, generate_maze width height rng i0 = some (cells, iEnd) ∧
      cells.length = width.toNat * height.toNat ∧
      openPairs cells = width.toNat * height.toNat - 1 ∧
      ∀ c ∈ cells, ∀ c' ∈ cells, Reach cells c.pos c'.pos := by
  obtain ⟨cells, iEnd, heq, hlen, hpairs, hsym, hreach⟩ :=
    generate_maze_props width height rng i0 hw hh
  exact ⟨cells, iEnd, heq, hlen, hpairs, reach_all_pairs hsym hreach⟩

theorem generate_maze_spanning_tree_witness :
    ∃ cells iEnd, generate_maze 2 2 (fun _ => 0) 0 = some (cells, iEnd) ∧
      cells.length = 4 ∧ openPairs cells = 3 ∧
      ∀ c ∈ cells, ∀ c' ∈ cells, Reach cells c.pos c'.pos :=
  generate_maze_spanning_tree 2 2 (fun _ => 0) 0 (by decide) (by decide)

/-- C2: the maze returned by `generate_maze` is a function of
`(width, height)` and of the seeded random stream alone; since
`random.seed(seed)` makes the stream a function of the seed, two calls with
identical `(width, height, seed)` return bit-identical cell lists. -/
theorem generate_maze_deterministic (width height : Int)
    (streamOfSeed1 streamOfSeed2 : Int → Nat → Nat) (seed : Int) (i0 : Nat)
    (h : ∀ n, streamOfSeed1 seed n = streamOfSeed2 seed n) :
    generate_maze width height (streamOfSeed1 seed) i0
      = generate_maze width height (streamOfSeed2 seed) i0 := by
  have hs : streamOfSeed1 seed = streamOfSeed2 seed := funext h
  rw [hs]

theorem generate_maze_deterministic_witness :
    generate_maze 3 2 ((fun (s : Int) (n : Nat) => s.natAbs + n) 7) 0
      = generate_maze 3 2 ((fun (s : Int) (n : Nat) => s.natAbs + n) 7) 0 :=
  generate_maze_deterministic 3 2 (fun (s : Int) (n : Nat) => s.natAbs + n)
    (fun (s : Int) (n : Nat) => s.natAbs + n) 7 0 (fun _ => rfl)

/-- C10: when the carving loop of `generate_maze` terminates, every in-bounds
grid entry is non-`None`, so the defensive `if cell is None` branch of the
flatten step is never taken. -/
theorem carve_leaves_no_none (width height : Int) (rng : Nat → Nat) (i0 : Nat)
    (hw : 1 ≤ width) (hh : 1 ≤ height) :
    ∀ p, inB width height p →
      (carveLoop width height rng (2 * (width.toNat * height.toNat))
        (initCarve i0)).grid p ≠ none := by
  obtain ⟨inv, hstack⟩ := carve_final width height rng i0 hw hh
  exact carveInv_allVisited width height _ inv hstack

theorem carve_leaves_no_none_witness :
    (carveLoop 2 2 (fun _ => 0) (2 * ((2 : Int).toNat * (2 : Int).toNat))
      (initCarve 0)).grid (1, 1) ≠ none :=
  carve_leaves_no_none 2 2 (fun _ => 0) 0 (by decide) (by decide) (1, 1) (by decide)

/-! ### `add_loops` -/

/-- Python `int()` applied to the product `width * height * loop_factor`
(truncation toward zero; the float product is modelled by a rational). -/
def pyInt (q : Rat) : Int := Int.tdiv q.num q.den

/-- Python list indexing semantics for a list of length `len`: an index in
`[0, len)` is used as is, an index in `[-len, 0)` wraps around, anything
else raises IndexError (`none`). -/
def pyIdx (len : Int) (i : Int) : Option Int :=
  if 0 ≤ i ∧ i < len then some i
  else if -len ≤ i ∧ i < 0 then some (i + len)
  else none

/-- The `for cell in cells: x, y = cell["position"]; grid[y][x] = cell`
build-up shared by `add_loops`, `find_farthest_cell` and the renderers,
as a map from (normalized) grid slots to the index of the cell occupying the
slot.  A later cell overwrites an earlier one in the same slot, and a
position outside Python's wrap-around indexing range raises (`none`). -/
def buildIdxC (width height : Int) : List Cell → Nat → ((Int × Int) → Option Nat) →
    Option ((Int × Int) → Option Nat)
  | [], _, m => some m
  | c :: rest, k, m =>
    match pyIdx height c.pos.2, pyIdx width c.pos.1 with
    | some yn, some xn =>
      buildIdxC width height rest (k + 1) (Function.update m (xn, yn) (some k))
    | some _, none => none
    | none, some _ => none
    | none, none => none

/-- The slot-to-index map of the whole cell list. -/
def buildIdx (width height : Int) (cells : List Cell) :
    Option ((Int × Int) → Option Nat) :=
  buildIdxC width height cells 0 (fun _ => none)

/-- State of the `add_loops` loop: the (mutated) cell list, `loops_added`,
and the random-stream index. -/
structure LoopState where
  cells : List Cell
  added : Nat
  idx : Nat

/-- One iteration body of `add_loops`: draw a random cell, collect its
closed directions toward in-bounds neighbors, and if any exist open one
symmetric passage-pair chosen at random.  `none` models a Python exception
(an uncovered grid slot holds `None` and subscripting it raises). -/
def add_loops_step (width height : Int) (gro : (Int × Int) → Option Nat)
    (rng : Nat → Nat) (st : LoopState) : Option LoopState :=
  let x : Int := ((rng st.idx % width.toNat : Nat) : Int)
  let y : Int := ((rng (st.idx + 1) % height.toNat : Nat) : Int)
  match gro (x, y) with
  | none => none
  | some j =>
    match st.cells.get? j with
    | none => none
    | some cell =>
      let candidates := (List.range 4).filter fun d =>
        decide (inB width height (adj (x, y) d)) && decide (dirGet cell.dirs d = 0)
      if candidates.isEmpty then
        some { st with idx := st.idx + 2 }
      else
        let d := pyChoice (rng (st.idx + 2)) candidates
        match gro (adj (x, y) d) with
        | none => none
        | some nj =>
          let cells1 := st.cells.set j ⟨cell.pos, dirSet cell.dirs d 1⟩
          match cells1.get? nj with
          | none => none
          | some nc =>
            some ⟨cells1.set nj ⟨nc.pos, dirSet nc.dirs ((d + 2) % 4) 1⟩,
              st.added + 1, st.idx + 3⟩

/-- The `while loops_added < total_loops and attempts < max_attempts` loop;
`remaining = max_attempts - attempts` decreases by one per iteration, and the
returned number is the final value of `attempts`. -/
def add_loops_loop (width height : Int) (gro : (Int × Int) → Option Nat)
    (rng : Nat → Nat) (total : Nat) :
    Nat → Nat → LoopState → Option (LoopState × Nat)
  | 0, attempts, st => some (st, attempts)
  | remaining + 1, attempts, st =>
    if st.added < total then
      match add_loops_step width height gro rng st with
      | none => none
      | some st2 => add_loops_loop width height gro rng total remaining (attempts + 1) st2
    else
      some (st, attempts)

/-- `add_loops(cells, width, height, loop_factor)` of `maze_tool.py`
(`max_attempts = total_loops * 10`).  Returns the mutated cell list, the
updated random-stream index and the final `attempts` counter; `none` models
a Python exception. -/
def add_loops (cells : List Cell) (width height : Int) (loop_factor : Rat)
    (rng : Nat → Nat) (i0 : Nat) : Option (List Cell × Nat × Nat) :=
  let total_loops : Nat := (pyInt (((width * height : Int) : Rat) * loop_factor)).toNat
  match buildIdx width height cells with
  | none => none
  | some gro =>
    let max_attempts := total_loops * 10
    match add_loops_loop width height gro rng total_loops max_attempts 0 ⟨cells, 0, i0⟩ with
    | none => none
    | some (st, attempts) => some (st.cells, st.idx, attempts)

theorem get?_set_self {α} {l : List α} {i : Nat} {a : α} (h : i < l.length) :
    (l.set i a).get? i = some a := by
  rw [List.get?_eq_getElem?]
  exact List.getElem?_set_eq_of_lt a h

theorem get?_set_ne {α} {l : List α} {i j : Nat} {a : α} (h : i ≠ j) :
    (l.set i a).get? j = l.get? j := by
  rw [List.get?_eq_getElem?, List.get?_eq_getElem?, List.getElem?_set_ne h]

theorem pyIdx_inB_fst {width height : Int} {p : Int × Int} (h : inB width height p) :
    pyIdx width p.1 = some p.1 := by
  obtain ⟨h1, h2, _, _⟩ := h
  unfold pyIdx
  rw [if_pos ⟨h1, h2⟩]

theorem pyIdx_inB_snd {width height : Int} {p : Int × Int} (h : inB width height p) :
    pyIdx height p.2 = some p.2 := by
  obtain ⟨_, _, h3, h4⟩ := h
  unfold pyIdx
  rw [if_pos ⟨h3, h4⟩]

theorem buildIdxC_inB_some {width height : Int} :
    ∀ (cells : List Cell) (k : Nat) (m : (Int × Int) → Option Nat),
      (∀ c ∈ cells, inB width height c.pos) →
      ∃ res, buildIdxC width height cells k m = some res := by
  intro cells
  induction cells with
  | nil => intro k m _; exact ⟨m, rfl⟩
  | cons c rest ih =>
    intro k m hin
    have hc := hin c (List.mem_cons_self c rest)
    have h1 := pyIdx_inB_fst hc
    have h2 := pyIdx_inB_snd hc
    obtain ⟨res, hres⟩ := ih (k + 1)
      (Function.update m (c.pos.1, c.pos.2) (some k))
      (fun b hb => hin b (List.mem_cons_of_mem c hb))
    refine ⟨res, ?_⟩
    unfold buildIdxC
    rw [h1, h2]
    exact hres

theorem buildIdxC_inB_spec {width height : Int} :
    ∀ (cells : List Cell) (k : Nat) (m : (Int × Int) → Option Nat) (res),
      (∀ c ∈ cells, inB width height c.pos) →
      buildIdxC width height cells k m = some res →
      ∀ p j, res p = some j →
        m p = some j ∨ ∃ t c, j = k + t ∧ cells.get? t = some c ∧ c.pos = p := by
  intro cells
  induction cells with
  | nil =>
    intro k m res _ hres p j hp
    cases hres
    exact Or.inl hp
  | cons c rest ih =>
    intro k m res hin hres p j hp
    have hc := hin c (List.mem_cons_self c rest)
    have h1 := pyIdx_inB_fst hc
    have h2 := pyIdx_inB_snd hc
    unfold buildIdxC at hres
    rw [h1, h2] at hres
    have := ih (k + 1) (Function.update m (c.pos.1, c.pos.2) (some k)) res
      (fun b hb => hin b (List.mem_cons_of_mem c hb)) hres p j hp
    rcases this with hm | ⟨t, c2, hjt, hget, hpos⟩
    · by_cases hpc : p = (c.pos.1, c.pos.2)
      · rw [hpc, Function.update_same] at hm
        obtain rfl := Option.some.inj hm
        refine Or.inr ⟨0, c, by omega, rfl, ?_⟩
        rw [hpc]
      · rw [Function.update_noteq hpc] at hm
        exact Or.inl hm
    · exact Or.inr ⟨t + 1, c2, by omega, by rw [← hget]; rfl, hpos⟩

theorem buildIdxC_cover {width height : Int} :
    ∀ (cells : List Cell) (k : Nat) (m : (Int × Int) → Option Nat) (res),
      (∀ c ∈ cells, inB width height c.pos) →
      buildIdxC width height cells k m = some res →
      ∀ p, (m p ≠ none ∨ ∃ c ∈ cells, c.pos = p) → res p ≠ none := by
  intro cells
  induction cells with
  | nil =>
    intro k m res _ hres p hp
    cases hres
    rcases hp with h | ⟨c, hc, _⟩
    · exact h
    · exact absurd hc (List.not_mem_nil c)
  | cons c rest ih =>
    intro k m res hin hres p hp
    have hc := hin c (List.mem_cons_self c rest)
    have h1 := pyIdx_inB_fst hc
    have h2 := pyIdx_inB_snd hc
    unfold buildIdxC at hres
    rw [h1, h2] at hres
    apply ih (k + 1) _ res (fun b hb => hin b (List.mem_cons_of_mem c hb)) hres
    rcases hp with h | ⟨c2, hc2, hc2p⟩
    · left
      by_cases hpc : p = (c.pos.1, c.pos.2)
      · rw [hpc, Function.update_same]
        exact Option.some_ne_none _
      · rw [Function.update_noteq hpc]
        exact h
    · rcases List.mem_cons.mp hc2 with rfl | hc2r
      · left
        have : p = (c2.pos.1, c2.pos.2) := by rw [hc2p]
        rw [this, Function.update_same]
        exact Option.some_ne_none _
      · right
        exact ⟨c2, hc2r, hc2p⟩

/-- Correctness of the built slot map, for in-bounds cell lists. -/
def IdxOk (gro : (Int × Int) → Option Nat) (cells : List Cell) : Prop :=
  ∀ p j, gro p = some j → ∃ c, cells.get? j = some c ∧ c.pos = p

theorem buildIdx_IdxOk {width height : Int} {cells : List Cell}
    {gro : (Int × Int) → Option Nat}
    (hin : ∀ c ∈ cells, inB width height c.pos)
    (h : buildIdx width height cells = some gro) : IdxOk gro cells := by
  intro p j hp
  rcases buildIdxC_inB_spec cells 0 (fun _ => none) gro hin h p j hp with hm | ⟨t, c, hjt, hget, hpos⟩
  · cases hm
  · exact ⟨c, by rw [show j = t by omega]; exact hget, hpos⟩

theorem buildIdx_cover {width height : Int} {cells : List Cell}
    {gro : (Int × Int) → Option Nat}
    (hin : ∀ c ∈ cells, inB width height c.pos)
    (h : buildIdx width height cells = some gro)
    {p : Int × Int} (hp : ∃ c ∈ cells, c.pos = p) : gro p ≠ none :=
  buildIdxC_cover cells 0 (fun _ => none) gro hin h p (Or.inr hp)

theorem flag_mono_dirSet {ds : Dirs} {d0 : Nat} (hd0 : d0 < 4) :
    ∀ e, dirGet ds e = 1 → dirGet (dirSet ds d0 1) e = 1 := by
  intro e he
  by_cases he4 : e < 4
  · rw [dirGet_dirSet ds 1 hd0 he4]
    split_ifs
    · rfl
    · exact he
  · rw [dirGet_ge_four ds (by omega)] at he
    cases he

/-- Pointwise relation between a cell list and its mutated version: every
slot keeps its position and only gains open flags. -/
def MonoCells (orig new : List Cell) : Prop :=
  ∀ t c, orig.get? t = some c → ∃ c', new.get? t = some c' ∧ c'.pos = c.pos ∧
    ∀ e, dirGet c.dirs e = 1 → dirGet c'.dirs e = 1

theorem sym_witness_mono {orig new : List Cell} (h : MonoCells orig new)
    {P : Int × Int} {e : Nat} :
    (∃ c2 ∈ orig, c2.pos = P ∧ dirGet c2.dirs e = 1) →
    ∃ c2 ∈ new, c2.pos = P ∧ dirGet c2.dirs e = 1 := by
  rintro ⟨c2, hc2, hpos, hflag⟩
  obtain ⟨t, ht⟩ := List.mem_iff_get?.mp hc2
  obtain ⟨c3, hc3, hc3pos, hc3mono⟩ := h t c2 ht
  exact ⟨c3, List.get?_mem hc3, by rw [hc3pos, hpos], hc3mono e hflag⟩

theorem add_loops_step_spec (width height : Int) (gro : (Int × Int) → Option Nat)
    (rng : Nat → Nat) (st : LoopState)
    (hw : 1 ≤ width) (hh : 1 ≤ height)
    (hok : IdxOk gro st.cells)
    (hcov : ∀ p, inB width height p → gro p ≠ none) :
    ∃ st', add_loops_step width height gro rng st = some st' ∧
      st'.cells.length = st.cells.length ∧
      (∀ t, ((st'.cells.get? t).map Cell.pos) = ((st.cells.get? t).map Cell.pos)) ∧
      (SymCells width height st.cells → SymCells width height st'.cells) := by
  have hxB : inB width height
      (((rng st.idx % width.toNat : Nat) : Int), ((rng (st.idx + 1) % height.toNat : Nat) : Int)) := by
    have hx : rng st.idx % width.toNat < width.toNat := Nat.mod_lt _ (by omega)
    have hy : rng (st.idx + 1) % height.toNat < height.toNat := Nat.mod_lt _ (by omega)
    exact ⟨by omega, by omega, by omega, by omega⟩
  set x : Int := ((rng st.idx % width.toNat : Nat) : Int) with hxdef
  set y : Int := ((rng (st.idx + 1) % height.toNat : Nat) : Int) with hydef
  obtain ⟨j, hj⟩ := Option.ne_none_iff_exists'.mp (hcov (x, y) hxB)
  obtain ⟨cell, hcell, hcellpos⟩ := hok (x, y) j hj
  unfold add_loops_step
  dsimp only
  rw [hj]
  dsimp only
  rw [hcell]
  dsimp only
  by_cases hcand : ((List.range 4).filter fun d =>
      decide (inB width height (adj (x, y) d)) && decide (dirGet cell.dirs d = 0)) = []
  · rw [hcand]
    refine ⟨{ st with idx := st.idx + 2 }, by simp, rfl, fun _ => rfl,
      fun hs => hs⟩
  · have hb : (((List.range 4).filter fun d =>
        decide (inB width height (adj (x, y) d)) && decide (dirGet cell.dirs d = 0))).isEmpty
        = false := by
      rw [List.isEmpty_eq_false]
      exact hcand
    rw [hb]
    simp only [Bool.false_eq_true, if_false]
    have hmem := pyChoice_mem (rng (st.idx + 2)) hcand
    rw [List.mem_filter, List.mem_range] at hmem
    obtain ⟨hd4, hprops⟩ := hmem
    simp only [Bool.and_eq_true, decide_eq_true_eq] at hprops
    obtain ⟨hdB, hd0⟩ := hprops
    set d := pyChoice (rng (st.idx + 2)) ((List.range 4).filter fun d =>
      decide (inB width height (adj (x, y) d)) && decide (dirGet cell.dirs d = 0)) with hddef
    obtain ⟨nj, hnj⟩ := Option.ne_none_iff_exists'.mp (hcov _ hdB)
    obtain ⟨nc0, hnc0, hnc0pos⟩ := hok _ nj hnj
    have hjnj : j ≠ nj := by
      intro hcon
      rw [← hcon, hcell] at hnc0
      obtain rfl := Option.some.inj hnc0
      rw [hcellpos] at hnc0pos
      exact adj_ne (x, y) hd4 hnc0pos.symm
    have hc1nj : (st.cells.set j ⟨cell.pos, dirSet cell.dirs d 1⟩).get? nj = some nc0 := by
      rw [get?_set_ne hjnj]
      exact hnc0
    rw [hnj]
    dsimp only
    rw [hc1nj]
    dsimp only
    have hjlt : j < st.cells.length := by
      by_contra hge
      rw [List.get?_eq_none.mpr (by omega)] at hcell
      cases hcell
    have hnjlt : nj < st.cells.length := by
      by_contra hge
      rw [List.get?_eq_none.mpr (by omega)] at hnc0
      cases hnc0
    set cJ : Cell := ⟨cell.pos, dirSet cell.dirs d 1⟩ with hcJ
    set cNJ : Cell := ⟨nc0.pos, dirSet nc0.dirs ((d + 2) % 4) 1⟩ with hcNJ
    set cells2 : List Cell := (st.cells.set j cJ).set nj cNJ with hcells2
    have hlen2 : cells2.length = st.cells.length := by
      rw [hcells2, List.length_set, List.length_set]
    have hget2 : ∀ t, cells2.get? t =
        if t = nj then some cNJ else if t = j then some cJ else st.cells.get? t := by
      intro t
      rw [hcells2]
      by_cases h1 : t = nj
      · subst h1
        rw [if_pos rfl, get?_set_self (by rw [List.length_set]; exact hnjlt)]
      · rw [if_neg h1, get?_set_ne (Ne.symm h1)]
        by_cases h2 : t = j
        · subst h2
          rw [if_pos rfl, get?_set_self hjlt]
        · rw [if_neg h2, get?_set_ne (Ne.symm h2)]
    have hmono : MonoCells st.cells cells2 := by
      intro t c ht
      rw [hget2]
      by_cases h1 : t = nj
      · subst h1
        rw [ht] at hnc0
        obtain rfl := Option.some.inj hnc0
        rw [if_pos rfl]
        exact ⟨cNJ, rfl, rfl, flag_mono_dirSet (opp_lt_four hd4)⟩
      · rw [if_neg h1]
        by_cases h2 : t = j
        · subst h2
          rw [ht] at hcell
          obtain rfl := Option.some.inj hcell
          rw [if_pos rfl]
          exact ⟨cJ, rfl, rfl, flag_mono_dirSet hd4⟩
        · rw [if_neg h2, ht]
          exact ⟨c, rfl, rfl, fun e he => he⟩
    refine ⟨⟨cells2, st.added + 1, st.idx + 3⟩, rfl, hlen2, ?_, ?_⟩
    · intro t
      rw [hget2]
      by_cases h1 : t = nj
      · subst h1
        rw [if_pos rfl, hnc0]
        rfl
      · rw [if_neg h1]
        by_cases h2 : t = j
        · subst h2
          rw [if_pos rfl, hcell]
          rfl
        · rw [if_neg h2]
    · intro hsym
      intro c2 hc2 e he hflag
      obtain ⟨t, ht⟩ := List.mem_iff_get?.mp hc2
      rw [hget2] at ht
      split_ifs at ht with h1 h2
      -- the neighbor cell, which gained the opposite flag
      · obtain rfl := Option.some.inj ht
        rw [hcNJ] at hflag
        dsimp only at hflag
        have hflag' := hflag
        rw [dirGet_dirSet nc0.dirs 1 (opp_lt_four hd4) he] at hflag'
        by_cases heo : e = (d + 2) % 4
        · constructor
          · rw [hcNJ]
            dsimp only
            rw [hnc0pos, heo, adj_adj (x, y) hd4]
            exact hxB
          · refine ⟨cJ, ?_, ?_, ?_⟩
            · refine @List.get?_mem _ _ j _ ?_
              rw [hget2 j, if_neg hjnj, if_pos rfl]
            · rw [hcJ, hcNJ]
              dsimp only
              rw [hcellpos, hnc0pos, heo, adj_adj (x, y) hd4]
            · rw [hcJ]
              dsimp only
              rw [heo, opp_opp hd4]
              exact dirGet_dirSet_self cell.dirs 1 hd4
        · rw [if_neg heo] at hflag'
          obtain ⟨hB2, hwit⟩ := hsym nc0 (List.get?_mem hnc0) e he hflag'
          constructor
          · rw [hcNJ]
            dsimp only
            exact hB2
          · have := sym_witness_mono hmono hwit
            rw [hcNJ]
            dsimp only
            exact this
      -- the drawn cell, which gained flag d
      · obtain rfl := Option.some.inj ht
        rw [hcJ] at hflag
        dsimp only at hflag
        have hflag' := hflag
        rw [dirGet_dirSet cell.dirs 1 hd4 he] at hflag'
        by_cases hed : e = d
        · constructor
          · rw [hcJ]
            dsimp only
            rw [hcellpos, hed]
            exact hdB
          · refine ⟨cNJ, ?_, ?_, ?_⟩
            · refine @List.get?_mem _ _ nj _ ?_
              rw [hget2 nj, if_pos rfl]
            · rw [hcJ, hcNJ]
              dsimp only
              rw [hcellpos, hnc0pos, hed]
            · rw [hcNJ]
              dsimp only
              rw [hed]
              exact dirGet_dirSet_self nc0.dirs 1 (opp_lt_four hd4)
        · rw [if_neg hed] at hflag'
          obtain ⟨hB2, hwit⟩ := hsym cell (List.get?_mem hcell) e he hflag'
          constructor
          · rw [hcJ]
            dsimp only
            exact hB2
          · have := sym_witness_mono hmono hwit
            rw [hcJ]
            dsimp only
            exact this
      -- untouched cells
      · obtain ⟨hB2, hwit⟩ := hsym c2 (List.get?_mem ht) e he hflag
        exact ⟨hB2, sym_witness_mono hmono hwit⟩

theorem IdxOk_of_pos_preserved {gro : (Int × Int) → Option Nat} {orig new : List Cell}
    (hok : IdxOk gro orig)
    (hpos : ∀ t, ((new.get? t).map Cell.pos) = ((orig.get? t).map Cell.pos)) :
    IdxOk gro new := by
  intro p j hp
  obtain ⟨c, hc, hcp⟩ := hok p j hp
  have h := hpos j
  rw [hc] at h
  cases hget : new.get? j with
  | none =>
    rw [hget] at h
    cases h
  | some c2 =>
    rw [hget] at h
    simp only [Option.map_some'] at h
    exact ⟨c2, rfl, by rw [Option.some.inj h, hcp]⟩

theorem add_loops_loop_spec (width height : Int) (gro : (Int × Int) → Option Nat)
    (rng : Nat → Nat) (total : Nat)
    (hw : 1 ≤ width) (hh : 1 ≤ height)
    (hcov : ∀ p, inB width height p → gro p ≠ none) :
    ∀ (remaining attempts : Nat) (st : LoopState), IdxOk gro st.cells →
      ∃ st' att', add_loops_loop width height gro rng total remaining attempts st
          = some (st', att') ∧ att' ≤ attempts + remaining ∧ IdxOk gro st'.cells ∧
        (SymCells width height st.cells → SymCells width height st'.cells) := by
  intro remaining
  induction remaining with
  | zero =>
    intro attempts st hok
    exact ⟨st, attempts, rfl, by omega, hok, fun hs => hs⟩
  | succ rem ih =>
    intro attempts st hok
    by_cases hgo : st.added < total
    · obtain ⟨st2, hstep, hlen, hpos, hsymp⟩ :=
        add_loops_step_spec width height gro rng st hw hh hok hcov
      have hok2 : IdxOk gro st2.cells := IdxOk_of_pos_preserved hok hpos
      obtain ⟨st3, att3, hloop, hatt, hok3, hsym3⟩ := ih (attempts + 1) st2 hok2
      refine ⟨st3, att3, ?_, by omega, hok3, fun hs => hsym3 (hsymp hs)⟩
      unfold add_loops_loop
      rw [if_pos hgo, hstep]
      exact hloop
    · refine ⟨st, attempts, ?_, by omega, hok, fun hs => hs⟩
      unfold add_loops_loop
      rw [if_neg hgo]

/-- C6: on a well-formed grid, `add_loops` terminates without error after at
most `max(1000, floor(width*height*loop_factor) * 10)` attempt iterations
(the `maze_tool.py` cap is `total_loops * 10`, which is within this bound),
even when fewer than `total_loops` passages could be opened. -/
theorem add_loops_terminates_bounded (cells : List Cell) (width height : Int)
    (loop_factor : Rat) (rng : Nat → Nat) (i0 : Nat)
    (hw : 1 ≤ width) (hh : 1 ≤ height)
    (hin : ∀ c ∈ cells, inB width height c.pos)
    (hcover : ∀ a ∈ List.range width.toNat, ∀ b ∈ List.range height.toNat,
      ∃ c ∈ cells, c.pos = ((a : Int), (b : Int))) :
    ∃ cells2 i2 attempts,
      add_loops cells width height loop_factor rng i0 = some (cells2, i2, attempts) ∧
        attempts ≤ max 1000
          ((pyInt (((width * height : Int) : Rat) * loop_factor)).toNat * 10) := by
  obtain ⟨gro, hgro⟩ := buildIdxC_inB_some cells 0 (fun _ => none) hin
  have hok : IdxOk gro cells := buildIdx_IdxOk hin hgro
  have hcov : ∀ p, inB width height p → gro p ≠ none := by
    intro p hp
    obtain ⟨h1, h2, h3, h4⟩ := hp
    refine buildIdx_cover hin hgro ?_
    have ha := hcover p.1.toNat (by rw [List.mem_range]; omega)
      p.2.toNat (by rw [List.mem_range]; omega)
    obtain ⟨c, hc, hcp⟩ := ha
    refine ⟨c, hc, ?_⟩
    rw [hcp, Prod.ext_iff]
    constructor <;> dsimp only <;> omega
  obtain ⟨st3, att3, hloop, hatt, _, _⟩ := add_loops_loop_spec width height gro rng
    ((pyInt (((width * height : Int) : Rat) * loop_factor)).toNat) hw hh hcov
    ((pyInt (((width * height : Int) : Rat) * loop_factor)).toNat * 10) 0
    ⟨cells, 0, i0⟩ hok
  refine ⟨st3.cells, st3.idx, att3, ?_, by omega⟩
  unfold add_loops
  rw [show buildIdx width height cells = some gro from hgro]
  dsimp only
  rw [hloop]

theorem add_loops_terminates_bounded_witness :
    ∃ cells2 i2 attempts,
      add_loops [⟨(0, 0), Dirs.closed⟩] 1 1 1 (fun _ => 0) 0 = some (cells2, i2, attempts) ∧
        attempts ≤ max 1000 ((pyInt (((1 * 1 : Int) : Rat) * 1)).toNat * 10) :=
  add_loops_terminates_bounded [⟨(0, 0), Dirs.closed⟩] 1 1 1 (fun _ => 0) 0
    (by decide) (by decide) (by decide) (by decide)

/-- C8: `add_loops` with `loop_factor = 0` computes `total_loops = 0`, so no
iteration runs: the returned cell list is the input unchanged (hence the
open-passage count is unchanged), the random stream is not consumed and the
attempt counter stays 0.  (`build_data` additionally skips the call entirely
when `loops > 0.0` fails.) -/
theorem add_loops_zero_noop (cells : List Cell) (width height : Int)
    (rng : Nat → Nat) (i0 : Nat)
    (hin : ∀ c ∈ cells, inB width height c.pos) :
    add_loops cells width height 0 rng i0 = some (cells, i0, 0) := by
  obtain ⟨gro, hgro⟩ := buildIdxC_inB_some cells 0 (fun _ => none) hin
  unfold add_loops
  rw [mul_zero, show buildIdx width height cells = some gro from hgro]
  rfl

theorem add_loops_zero_noop_witness :
    add_loops [⟨(0, 0), Dirs.closed⟩] 1 1 0 (fun _ => 0) 5 = some ([⟨(0, 0), Dirs.closed⟩], 5, 0) :=
  add_loops_zero_noop [⟨(0, 0), Dirs.closed⟩] 1 1 (fun _ => 0) 5 (by decide)

/-- C3: the passage flags are symmetric after `generate_maze` (no flag toward
an out-of-bounds neighbor is ever set, and each open flag is mirrored by the
opposite flag of the in-bounds neighbor), and every iteration of `add_loops`
on a well-formed grid preserves this symmetry, as does the whole
`add_loops` call. -/
theorem symmetry_invariant :
    (∀ (width height : Int) (rng : Nat → Nat) (i0 : Nat) (cells : List Cell) (iEnd : Nat),
      1 ≤ width → 1 ≤ height →
      generate_maze width height rng i0 = some (cells, iEnd) →
      SymCells width height cells) ∧
    (∀ (width height : Int) (gro : (Int × Int) → Option Nat) (rng : Nat → Nat)
      (st st2 : LoopState),
      1 ≤ width → 1 ≤ height → IdxOk gro st.cells →
      (∀ p, inB width height p → gro p ≠ none) →
      add_loops_step width height gro rng st = some st2 →
      SymCells width height st.cells → SymCells width height st2.cells) ∧
    (∀ (cells : List Cell) (width height : Int) (loop_factor : Rat)
      (rng : Nat → Nat) (i0 : Nat) (out : List Cell × Nat × Nat),
      1 ≤ width → 1 ≤ height →
      (∀ c ∈ cells, inB width height c.pos) →
      (∀ a ∈ List.range width.toNat, ∀ b ∈ List.range height.toNat,
        ∃ c ∈ cells, c.pos = ((a : Int), (b : Int))) →
      add_loops cells width height loop_factor rng i0 = some out →
      SymCells width height cells → SymCells width height out.1) := by
  refine ⟨?_, ?_, ?_⟩
  · intro width height rng i0 cells iEnd hw hh hgen
    obtain ⟨cells2, iEnd2, heq, _, _, hsym, _⟩ := generate_maze_props width height rng i0 hw hh
    rw [hgen] at heq
    obtain ⟨rfl, rfl⟩ := Prod.mk.injEq .. ▸ Option.some.inj heq
    exact hsym
  · intro width height gro rng st st2 hw hh hok hcov hstep hsym
    obtain ⟨st3, hstep3, _, _, hsymp⟩ := add_loops_step_spec width height gro rng st hw hh hok hcov
    rw [hstep] at hstep3
    obtain rfl := Option.some.inj hstep3
    exact hsymp hsym
  · intro cells width height loop_factor rng i0 out hw hh hin hcover hcall hsym
    obtain ⟨gro, hgro⟩ := buildIdxC_inB_some cells 0 (fun _ => none) hin
    have hok : IdxOk gro cells := buildIdx_IdxOk hin hgro
    have hcov : ∀ p, inB width height p → gro p ≠ none := by
      intro p hp
      obtain ⟨h1, h2, h3, h4⟩ := hp
      refine buildIdx_cover hin hgro ?_
      obtain ⟨c, hc, hcp⟩ := hcover p.1.toNat (by rw [List.mem_range]; omega)
        p.2.toNat (by rw [List.mem_range]; omega)
      refine ⟨c, hc, ?_⟩
      rw [hcp, Prod.ext_iff]
      constructor <;> dsimp only <;> omega
    obtain ⟨st3, att3, hloop, _, _, hsym3⟩ := add_loops_loop_spec width height gro rng
      ((pyInt (((width * height : Int) : Rat) * loop_factor)).toNat) hw hh hcov
      ((pyInt (((width * height : Int) : Rat) * loop_factor)).toNat * 10) 0
      ⟨cells, 0, i0⟩ hok
    have hcall2 : add_loops cells width height loop_factor rng i0
        = some (st3.cells, st3.idx, att3) := by
      unfold add_loops
      rw [show buildIdx width height cells = some gro from hgro]
      dsimp only
      rw [hloop]
    rw [hcall2] at hcall
    obtain rfl := Option.some.inj hcall
    exact hsym3 hsym

theorem symmetry_invariant_witness : SymCells 1 1 [⟨(0, 0), Dirs.closed⟩] :=
  symmetry_invariant.1 1 1 (fun _ => 0) 0 [⟨(0, 0), Dirs.closed⟩] 0
    (by norm_num) (by norm_num) (by rfl)

/-! ### `find_farthest_cell` -/

/-- State of the BFS of `find_farthest_cell`: the `visited` table (keyed by
normalized in-range slots), the FIFO queue of `(x, y, distance)` triples,
and the tracked farthest cell with its distance. -/
structure BfsState where
  vis : (Int × Int) → Bool
  queue : List (Int × Int × Nat)
  far : Int × Int
  maxd : Nat

/-- One direction check of the BFS inner loop: if the passage in direction
`d` is open and leads to an in-bounds unvisited neighbor, mark it and
enqueue it. -/
def bfs_dir (width height : Int) (x y : Int) (dist : Nat) (cell : Cell)
    (acc : ((Int × Int) → Bool) × List (Int × Int × Nat)) (d : Nat) :
    ((Int × Int) → Bool) × List (Int × Int × Nat) :=
  if dirGet cell.dirs d = 1 then
    if inB width height (x + DX d, y + DY d) ∧ acc.1 (x + DX d, y + DY d) = false then
      (Function.update acc.1 (x + DX d, y + DY d) true,
        acc.2 ++ [(x + DX d, y + DY d, dist + 1)])
    else acc
  else acc

/-- The `for d in range(4)` body of the BFS: follow each open passage to an
in-bounds unvisited neighbor, mark it and enqueue it. -/
def bfs_inner (width height : Int) (x y : Int) (dist : Nat) (cell : Cell) :
    ((Int × Int) → Bool) × List (Int × Int × Nat) →
    ((Int × Int) → Bool) × List (Int × Int × Nat) :=
  fun acc => (List.range 4).foldl (bfs_dir width height x y dist cell) acc

/-- One iteration of the `while queue:` loop of `find_farthest_cell`:
pop the front triple, update the farthest cell, read `grid[y][x]` with
Python's wrap-around indexing (`none` models IndexError or subscripting a
`None` entry) and expand the open passages. -/
def bfs_step (width height : Int) (gro : (Int × Int) → Option Nat)
    (cells : List Cell) (st : BfsState) : Option BfsState :=
  match st.queue with
  | [] => some st
  | (x, y, dist) :: qrest =>
    let far2 := if dist > st.maxd then (x, y) else st.far
    let maxd2 := if dist > st.maxd then dist else st.maxd
    match pyIdx height y, pyIdx width x with
    | some yn, some xn =>
      match gro (xn, yn) with
      | none => none
      | some j =>
        match cells.get? j with
        | none => none
        | some cell =>
          let vq := bfs_inner width height x y dist cell (st.vis, qrest)
          some ⟨vq.1, vq.2, far2, maxd2⟩
    | some _, none => none
    | none, some _ => none
    | none, none => none

/-- The `while queue:` loop, with fuel (proved sufficient below). -/
def bfs_loop (width height : Int) (gro : (Int × Int) → Option Nat)
    (cells : List Cell) : Nat → BfsState → Option BfsState
  | 0, st => if st.queue = [] then some st else none
  | fuel + 1, st =>
    match st.queue with
    | [] => some st
    | _ :: _ =>
      match bfs_step width height gro cells st with
      | none => none
      | some st2 => bfs_loop width height gro cells fuel st2

/-- `find_farthest_cell(cells, width, height, start)`: build the grid, seed
`visited` at `start` (with Python's wrap-around list indexing — an index
outside `[-len, len)` raises, modelled as `none`), run the BFS and return
the tracked farthest coordinate. -/
def find_farthest_cell (cells : List Cell) (width height : Int)
    (start : Int × Int) : Option (Int × Int) :=
  match buildIdx width height cells with
  | none => none
  | some gro =>
    match pyIdx height start.2, pyIdx width start.1 with
    | some yn, some xn =>
      let vis0 := Function.update (fun _ => false) (xn, yn) true
      match bfs_loop width height gro cells (2 * (width.toNat * height.toNat) + 1)
          ⟨vis0, [(start.1, start.2, 0)], start, 0⟩ with
      | none => none
      | some stF => some stF.far
    | some _, none => none
    | none, some _ => none
    | none, none => none

/-- Unvisited-indicator weight of a `visited` entry. -/
def bUnvis : Bool → Nat
  | true => 0
  | false => 1

/-- Number of unvisited in-bounds `visited` entries. -/
def unmarkedSum (width height : Int) (vis : (Int × Int) → Bool) : Nat :=
  ∑ p ∈ rectN width height, bUnvis (vis (keyPos p))

/-- Termination measure of the BFS. -/
def bfsMeasure (width height : Int) (st : BfsState) : Nat :=
  2 * unmarkedSum width height st.vis + st.queue.length

/-- Every queued coordinate survives Python's wrap-around indexing. -/
def QueueOk (width height : Int) (queue : List (Int × Int × Nat)) : Prop :=
  ∀ e ∈ queue, (pyIdx width e.1).isSome ∧ (pyIdx height e.2.1).isSome

theorem pyIdx_some_range {len i v : Int} (h : pyIdx len i = some v) :
    0 ≤ v ∧ v < len := by
  unfold pyIdx at h
  split_ifs at h with h1 h2
  · obtain rfl := Option.some.inj h
    exact h1
  · obtain rfl := Option.some.inj h
    omega

theorem pyIdx_isSome_iff {len i : Int} :
    (pyIdx len i).isSome ↔ (-len ≤ i ∧ i < len) := by
  constructor
  · intro h
    unfold pyIdx at h
    split_ifs at h with h1 h2
    · omega
    · omega
    · simp only [Option.isSome_none] at h
      cases h
  · intro h
    unfold pyIdx
    split_ifs with h1 h2
    · exact Option.isSome_some
    · exact Option.isSome_some
    · exfalso
      omega

theorem bfs_dir_spec (width height : Int) (x y : Int) (dist : Nat) (cell : Cell)
    (acc : ((Int × Int) → Bool) × List (Int × Int × Nat)) (d : Nat) :
    (2 * unmarkedSum width height (bfs_dir width height x y dist cell acc d).1
        + (bfs_dir width height x y dist cell acc d).2.length
      ≤ 2 * unmarkedSum width height acc.1 + acc.2.length) ∧
    (QueueOk width height acc.2 →
      QueueOk width height (bfs_dir width height x y dist cell acc d).2) := by
  unfold bfs_dir
  split_ifs with h1 h2
  · obtain ⟨hB, hfresh⟩ := h2
    have hsum := @sum_keyPos_update _ width height bUnvis acc.1 (x + DX d, y + DY d) true hB
    have hv : bUnvis (acc.1 (x + DX d, y + DY d)) = 1 := by rw [hfresh]; rfl
    rw [hv] at hsum
    constructor
    · show 2 * unmarkedSum width height (Function.update acc.1 (x + DX d, y + DY d) true)
        + (acc.2 ++ [(x + DX d, y + DY d, dist + 1)]).length
        ≤ 2 * unmarkedSum width height acc.1 + acc.2.length
      rw [List.length_append]
      unfold unmarkedSum
      have hb : bUnvis true = 0 := rfl
      have hl : ([(x + DX d, y + DY d, dist + 1)] : List (Int × Int × Nat)).length = 1 := rfl
      omega
    · intro hqok e he
      rcases List.mem_append.mp he with h | h
      · exact hqok e h
      · rw [List.mem_singleton] at h
        subst h
        dsimp only
        constructor
        · rw [pyIdx_isSome_iff]
          obtain ⟨a1, a2, a3, a4⟩ := hB
          exact ⟨by omega, a2⟩
        · rw [pyIdx_isSome_iff]
          obtain ⟨a1, a2, a3, a4⟩ := hB
          exact ⟨by omega, a4⟩
  · exact ⟨by omega, fun h => h⟩
  · exact ⟨by omega, fun h => h⟩

theorem bfs_fold_spec (width height : Int) (x y : Int) (dist : Nat) (cell : Cell) :
    ∀ (l : List Nat) (acc : ((Int × Int) → Bool) × List (Int × Int × Nat)),
      (2 * unmarkedSum width height (l.foldl (bfs_dir width height x y dist cell) acc).1
          + (l.foldl (bfs_dir width height x y dist cell) acc).2.length
        ≤ 2 * unmarkedSum width height acc.1 + acc.2.length) ∧
      (QueueOk width height acc.2 →
        QueueOk width height (l.foldl (bfs_dir width height x y dist cell) acc).2) := by
  intro l
  induction l with
  | nil => intro acc; exact ⟨le_refl _, fun h => h⟩
  | cons a t ih =>
    intro acc
    rw [List.foldl_cons]
    obtain ⟨hm1, hq1⟩ := bfs_dir_spec width height x y dist cell acc a
    obtain ⟨hm2, hq2⟩ := ih (bfs_dir width height x y dist cell acc a)
    exact ⟨by omega, fun h => hq2 (hq1 h)⟩

theorem bfs_step_spec (width height : Int) (gro : (Int × Int) → Option Nat)
    (cells : List Cell) (st : BfsState)
    (hok : IdxOk gro cells)
    (hcov : ∀ p, inB width height p → gro p ≠ none)
    {x y : Int} {dist : Nat} {qrest : List (Int × Int × Nat)}
    (hqueue : st.queue = (x, y, dist) :: qrest)
    (hqok : QueueOk width height st.queue) :
    ∃ st2, bfs_step width height gro cells st = some st2 ∧
      QueueOk width height st2.queue ∧
      bfsMeasure width height st2 + 1 ≤ bfsMeasure width height st := by
  obtain ⟨hxs, hys⟩ := hqok (x, y, dist) (by rw [hqueue]; exact List.mem_cons_self _ _)
  obtain ⟨xn, hxn⟩ := Option.isSome_iff_exists.mp hxs
  obtain ⟨yn, hyn⟩ := Option.isSome_iff_exists.mp hys
  have hslotB : inB width height (xn, yn) := by
    obtain ⟨hx1, hx2⟩ := pyIdx_some_range hxn
    obtain ⟨hy1, hy2⟩ := pyIdx_some_range hyn
    exact ⟨hx1, hx2, hy1, hy2⟩
  obtain ⟨j, hj⟩ := Option.ne_none_iff_exists'.mp (hcov (xn, yn) hslotB)
  obtain ⟨cell, hcell, _⟩ := hok (xn, yn) j hj
  have hqok' : QueueOk width height qrest := by
    intro e he
    exact hqok e (by rw [hqueue]; exact List.mem_cons_of_mem _ he)
  obtain ⟨hmf, hqf⟩ := bfs_fold_spec width height x y dist cell (List.range 4) (st.vis, qrest)
  refine ⟨⟨(bfs_inner width height x y dist cell (st.vis, qrest)).1,
      (bfs_inner width height x y dist cell (st.vis, qrest)).2,
      if dist > st.maxd then (x, y) else st.far,
      if dist > st.maxd then dist else st.maxd⟩, ?_, ?_, ?_⟩
  · unfold bfs_step
    rw [hqueue]
    dsimp only
    rw [hyn, hxn]
    dsimp only
    rw [hj]
    dsimp only
    rw [hcell]
  · exact hqf hqok'
  · unfold bfsMeasure bfs_inner
    dsimp only
    dsimp only at hmf
    rw [hqueue]
    simp only [List.length_cons]
    omega

theorem bfs_loop_spec (width height : Int) (gro : (Int × Int) → Option Nat)
    (cells : List Cell)
    (hok : IdxOk gro cells)
    (hcov : ∀ p, inB width height p → gro p ≠ none) :
    ∀ (fuel : Nat) (st : BfsState), QueueOk width height st.queue →
      bfsMeasure width height st ≤ fuel →
      ∃ stF, bfs_loop width height gro cells fuel st = some stF := by
  intro fuel
  induction fuel with
  | zero =>
    intro st hqok hm
    have hnil : st.queue = [] := by
      unfold bfsMeasure at hm
      exact List.length_eq_zero.mp (by omega)
    refine ⟨st, ?_⟩
    unfold bfs_loop
    rw [if_pos hnil]
  | succ fuel ih =>
    intro st hqok hm
    cases hqeq : st.queue with
    | nil =>
      refine ⟨st, ?_⟩
      unfold bfs_loop
      rw [hqeq]
    | cons e qrest =>
      obtain ⟨x, y, dist⟩ := e
      obtain ⟨st2, hstep, hqok2, hdec⟩ :=
        bfs_step_spec width height gro cells st hok hcov hqeq hqok
      obtain ⟨stF, hloop⟩ := ih st2 hqok2 (by omega)
      refine ⟨stF, ?_⟩
      unfold bfs_loop
      rw [hqeq]
      dsimp only
      rw [hstep]
      exact hloop

theorem unmarkedSum_le (width height : Int) (vis : (Int × Int) → Bool) :
    unmarkedSum width height vis ≤ width.toNat * height.toNat := by
  unfold unmarkedSum
  calc (∑ p ∈ rectN width height, bUnvis (vis (keyPos p)))
      ≤ ∑ _p ∈ rectN width height, 1 := by
        apply Finset.sum_le_sum
        intro p _
        cases vis (keyPos p) <;> simp [bUnvis]
    _ = width.toNat * height.toNat := by
        rw [Finset.sum_const, smul_eq_mul, mul_one]
        unfold rectN
        rw [Finset.card_product, Finset.card_range, Finset.card_range]

/-- C5 (amended): `find_farthest_cell` performs no bounds validation.
On a well-formed grid it raises an IndexError (returns no coordinate)
exactly when the start coordinate falls outside Python's wrap-around
indexing range `[-len, len)` on either axis; for any start inside that
range — in particular every in-bounds start — it returns a coordinate
without error. -/
theorem find_farthest_cell_cases (cells : List Cell) (width height : Int)
    (start : Int × Int)
    (hw : 1 ≤ width) (hh : 1 ≤ height)
    (hin : ∀ c ∈ cells, inB width height c.pos)
    (hcover : ∀ a ∈ List.range width.toNat, ∀ b ∈ List.range height.toNat,
      ∃ c ∈ cells, c.pos = ((a : Int), (b : Int))) :
    ((-width ≤ start.1 ∧ start.1 < width ∧ -height ≤ start.2 ∧ start.2 < height) →
      (find_farthest_cell cells width height start).isSome) ∧
    ((start.1 < -width ∨ width ≤ start.1 ∨ start.2 < -height ∨ height ≤ start.2) →
      find_farthest_cell cells width height start = none) := by
  obtain ⟨gro, hgro⟩ := buildIdxC_inB_some cells 0 (fun _ => none) hin
  have hok : IdxOk gro cells := buildIdx_IdxOk hin hgro
  have hcov : ∀ p, inB width height p → gro p ≠ none := by
    intro p hp
    obtain ⟨h1, h2, h3, h4⟩ := hp
    refine buildIdx_cover hin hgro ?_
    obtain ⟨c, hc, hcp⟩ := hcover p.1.toNat (by rw [List.mem_range]; omega)
      p.2.toNat (by rw [List.mem_range]; omega)
    refine ⟨c, hc, ?_⟩
    rw [hcp, Prod.ext_iff]
    constructor <;> dsimp only <;> omega
  constructor
  · rintro ⟨hs1, hs2, hs3, hs4⟩
    have hxs : (pyIdx width start.1).isSome := pyIdx_isSome_iff.mpr ⟨hs1, hs2⟩
    have hys : (pyIdx height start.2).isSome := pyIdx_isSome_iff.mpr ⟨hs3, hs4⟩
    obtain ⟨xn, hxn⟩ := Option.isSome_iff_exists.mp hxs
    obtain ⟨yn, hyn⟩ := Option.isSome_iff_exists.mp hys
    have hqok : QueueOk width height [(start.1, start.2, 0)] := by
      intro e he
      rw [List.mem_singleton] at he
      subst he
      exact ⟨hxs, hys⟩
    obtain ⟨stF, hloop⟩ := bfs_loop_spec width height gro cells hok hcov
      (2 * (width.toNat * height.toNat) + 1)
      ⟨Function.update (fun _ => false) (xn, yn) true, [(start.1, start.2, 0)], start, 0⟩
      hqok
      (by
        unfold bfsMeasure
        dsimp only
        have := unmarkedSum_le width height
          (Function.update (fun _ => false) (xn, yn) true)
        simp only [List.length_singleton]
        omega)
    unfold find_farthest_cell
    rw [show buildIdx width height cells = some gro from hgro]
    dsimp only
    rw [hyn, hxn]
    dsimp only
    rw [hloop]
    exact Option.isSome_some
  · intro hout
    unfold find_farthest_cell
    rw [show buildIdx width height cells = some gro from hgro]
    dsimp only
    rcases hout with h | h | h | h
    all_goals {
      cases hys : pyIdx height start.2 with
      | none =>
        cases hxs : pyIdx width start.1 with
        | none => rfl
        | some xn => rfl
      | some yn =>
        cases hxs : pyIdx width start.1 with
        | none => rfl
        | some xn =>
          exfalso
          have h1 := pyIdx_isSome_iff.mp (by rw [hys]; exact Option.isSome_some)
          have h2 := pyIdx_isSome_iff.mp (by rw [hxs]; exact Option.isSome_some)
          omega
    }

theorem pyChoice_singleton (r : Nat) (a : Nat) : pyChoice r [a] = a := by
  unfold pyChoice
  rw [List.length_singleton, Nat.mod_one]
  rfl

theorem carveLoop_cons (width height : Int) (rng : Nat → Nat) (fuel : Nat)
    (g : GridMap) (p : Int × Int) (rest : List (Int × Int)) (i : Nat) :
    carveLoop width height rng (fuel + 1) ⟨g, p :: rest, i⟩
      = carveLoop width height rng fuel (carveStep width height rng ⟨g, p :: rest, i⟩) := by
  conv_lhs => rw [carveLoop]
  rw [if_neg (by simp)]

theorem carveLoop_nil (width height : Int) (rng : Nat → Nat) (fuel : Nat)
    (st : CarveState) (h : st.stack = []) :
    carveLoop width height rng fuel st = st := by
  cases fuel with
  | zero => rfl
  | succ f =>
    unfold carveLoop
    rw [if_pos h]

theorem carveStep_push2 (width height : Int) (rng : Nat → Nat) (g : GridMap)
    (x y : Int) (rest : List (Int × Int)) (i : Nat) (ns : List Nat)
    (hnb : neighborsOf width height g x y = ns) (hne : ns ≠ [])
    (cur : Cell) (hcur : g (x, y) = some cur)
    (d : Nat) (hd : d = pyChoice (rng i) ns) :
    carveStep width height rng ⟨g, (x, y) :: rest, i⟩ =
      ⟨Function.update
          (Function.update g (x, y) (some ⟨cur.pos, dirSet cur.dirs d 1⟩))
          (adj (x, y) d)
          (some ⟨adj (x, y) d, dirSet Dirs.closed ((d + 2) % 4) 1⟩),
        adj (x, y) d :: (x, y) :: rest,
        i + 1⟩ := by
  subst hnb
  exact carveStep_push width height rng g x y rest i hne cur hcur d hd

/-- The unique cell list of a 1x5 maze: a straight vertical corridor. -/
def corridor5 : List Cell :=
  [⟨(0, 0), ⟨0, 0, 1, 0⟩⟩, ⟨(0, 1), ⟨1, 0, 1, 0⟩⟩, ⟨(0, 2), ⟨1, 0, 1, 0⟩⟩,
   ⟨(0, 3), ⟨1, 0, 1, 0⟩⟩, ⟨(0, 4), ⟨1, 0, 0, 0⟩⟩]

/-- C9 (amended): for every seed, `generate_maze(1, 5, seed)` is the single
straight corridor (each carve step has exactly one eligible neighbor, so the
random choices are forced), and `find_farthest_cell` from `(0, 0)` on it
returns `(0, 4)` — the bottom cell of the `width=1`, `height=5` corridor —
not `(4, 0)`. -/
theorem generate_1x5_farthest (rng : Nat → Nat) (i0 : Nat) :
    generate_maze 1 5 rng i0 = some (corridor5, i0 + 4) ∧
      find_farthest_cell corridor5 1 5 (0, 0) = some (0, 4) := by
  refine ⟨?_, by decide⟩
  unfold generate_maze
  rw [if_neg (by norm_num)]
  have hinit : initCarve i0 = ⟨Function.update (fun _ => none) ((0 : Int), (0 : Int))
      (some (make_cell 0 0)), [((0 : Int), (0 : Int))], i0⟩ := rfl
  rw [hinit]
  rw [show (2 * ((1 : Int).toNat * (5 : Int).toNat)) = 10 from rfl]
  -- four forced pushes carve the corridor downward
  rw [carveLoop_cons,
    carveStep_push2 1 5 rng _ 0 0 [] i0 [2] (by decide) (by decide)
      (make_cell 0 0) (by decide) 2 (by rw [pyChoice_singleton]),
    show adj ((0 : Int), (0 : Int)) 2 = ((0 : Int), (1 : Int)) from by decide]
  rw [carveLoop_cons,
    carveStep_push2 1 5 rng _ 0 1 [((0 : Int), (0 : Int))] (i0 + 1) [2] (by decide) (by decide)
      ⟨((0 : Int), (1 : Int)), ⟨1, 0, 0, 0⟩⟩ (by decide) 2 (by rw [pyChoice_singleton]),
    show adj ((0 : Int), (1 : Int)) 2 = ((0 : Int), (2 : Int)) from by decide]
  rw [carveLoop_cons,
    carveStep_push2 1 5 rng _ 0 2 [((0 : Int), (1 : Int)), ((0 : Int), (0 : Int))] (i0 + 1 + 1)
      [2] (by decide) (by decide)
      ⟨((0 : Int), (2 : Int)), ⟨1, 0, 0, 0⟩⟩ (by decide) 2 (by rw [pyChoice_singleton]),
    show adj ((0 : Int), (2 : Int)) 2 = ((0 : Int), (3 : Int)) from by decide]
  rw [carveLoop_cons,
    carveStep_push2 1 5 rng _ 0 3
      [((0 : Int), (2 : Int)), ((0 : Int), (1 : Int)), ((0 : Int), (0 : Int))] (i0 + 1 + 1 + 1)
      [2] (by decide) (by decide)
      ⟨((0 : Int), (3 : Int)), ⟨1, 0, 0, 0⟩⟩ (by decide) 2 (by rw [pyChoice_singleton]),
    show adj ((0 : Int), (3 : Int)) 2 = ((0 : Int), (4 : Int)) from by decide]
  -- five pops unwind the stack
  rw [carveLoop_cons, carveStep_pop 1 5 rng _ 0 4 _ _ (by decide)]
  rw [carveLoop_cons, carveStep_pop 1 5 rng _ 0 3 _ _ (by decide)]
  rw [carveLoop_cons, carveStep_pop 1 5 rng _ 0 2 _ _ (by decide)]
  rw [carveLoop_cons, carveStep_pop 1 5 rng _ 0 1 _ _ (by decide)]
  rw [carveLoop_cons, carveStep_pop 1 5 rng _ 0 0 _ _ (by decide)]
  rw [carveLoop_nil 1 5 rng 1 _ rfl]
  dsimp only
  refine congrArg some ?_
  rw [Prod.ext_iff]
  dsimp only
  exact ⟨by decide, by omega⟩

theorem generate_1x5_farthest_counterexample :
    (generate_maze 1 5 (fun _ => 0) 0).map (fun r => find_farthest_cell r.1 1 5 (0, 0))
      = some (some ((0 : Int), (4 : Int))) ∧
    ((0 : Int), (4 : Int)) ≠ ((4 : Int), (0 : Int)) := by
  decide

theorem find_farthest_oob_counterexample :
    find_farthest_cell [⟨(0, 0), ⟨0, 1, 0, 0⟩⟩, ⟨(1, 0), ⟨0, 0, 0, 1⟩⟩] 2 1 (-1, 0)
      = some (-1, 0) ∧ ¬ inB 2 1 ((-1 : Int), (0 : Int)) := by
  decide

theorem find_farthest_cell_cases_witness :
    (find_farthest_cell [⟨(0, 0), ⟨0, 1, 0, 0⟩⟩, ⟨(1, 0), ⟨0, 0, 0, 1⟩⟩] 2 1 (0, 0)).isSome :=
  (find_farthest_cell_cases [⟨(0, 0), ⟨0, 1, 0, 0⟩⟩, ⟨(1, 0), ⟨0, 0, 0, 1⟩⟩] 2 1 (0, 0)
    (by decide) (by decide) (by decide) (by decide)).1 (by decide)

/-! ### `build_data` and `main` -/

/-- The dict returned by `build_data`: width, height, cells, start, end and
the `difficulty = {"loops": loops}` metadata. -/
structure MazeData where
  width : Int
  height : Int
  cells : List Cell
  start : Int × Int
  endp : Int × Int
  loops : Rat
deriving DecidableEq, Repr

/-- `build_data(width, height, seed, loops, start_str, end_str)`:
generate, optionally inject loops, resolve start (parsed argument or
`(0, 0)`) and end (parsed argument or farthest cell).  `none` models an
uncaught Python exception — no partial maze is ever returned. -/
def build_data (width height : Int) (rng : Nat → Nat) (i0 : Nat) (loops : Rat)
    (start_arg end_arg : Option (Int × Int)) : Option MazeData :=
  match generate_maze width height rng i0 with
  | none => none
  | some (cells0, i1) =>
    match (if loops > 0 then add_loops cells0 width height loops rng i1
           else some (cells0, i1, 0)) with
    | none => none
    | some (cells, _, _) =>
      let start := start_arg.getD (0, 0)
      match (match end_arg with
             | some e => some e
             | none => find_farthest_cell cells width height start) with
      | none => none
      | some endp => some ⟨width, height, cells, start, endp, loops⟩

/-- The generation entry point as invoked from `main`: `main` clamps both
dimensions with `max(1, ...)` before calling `build_data`. -/
def main_build (width height : Int) (rng : Nat → Nat) (i0 : Nat) (loops : Rat)
    (start_arg end_arg : Option (Int × Int)) : Option MazeData :=
  build_data (max 1 width) (max 1 height) rng i0 loops start_arg end_arg

/-- C7 counterexample: with `width = 0 < 1`, the entry point as invoked from
`main` does not fail — it clamps the dimensions and returns a maze. -/
theorem main_build_zero_width_succeeds :
    ((0 : Int) < 1) ∧ (main_build 0 0 (fun _ => 0) 0 0 none none).isSome := by
  decide

/-- C7 (amended): there is no `InvalidDimension` validation anywhere.
`main` clamps `width` and `height` with `max(1, ...)`, so `build_data` is
never invoked with an invalid dimension and generation succeeds; a direct
call of `build_data` with `width < 1` or `height < 1` dies with an uncaught
IndexError inside `generate_maze` (no partial maze is returned). -/
theorem build_data_invalid_dims (width height : Int) (rng : Nat → Nat) (i0 : Nat)
    (loops : Rat) (start_arg end_arg : Option (Int × Int))
    (h : width < 1 ∨ height < 1) :
    build_data width height rng i0 loops start_arg end_arg = none ∧
      main_build width height rng i0 loops start_arg end_arg
        = build_data (max 1 width) (max 1 height) rng i0 loops start_arg end_arg := by
  constructor
  · have hg : generate_maze width height rng i0 = none := by
      unfold generate_maze
      rw [if_pos (by omega)]
    unfold build_data
    rw [hg]
  · rfl

theorem build_data_invalid_dims_witness :
    build_data 0 3 (fun _ => 0) 0 0 none none = none ∧
      main_build 0 3 (fun _ => 0) 0 0 none none
        = build_data (max 1 0) (max 1 3) (fun _ => 0) 0 0 none none :=
  build_data_invalid_dims 0 3 (fun _ => 0) 0 0 none none (Or.inl (by decide))

/-! ### `export_compact_lines` and the canonical-text round trip -/

/-- `"\n".join(lines)` over Python strings modelled as char lists. -/
def joinLines : List (List Char) → List Char
  | [] => []
  | [l] => l
  | l :: l2 :: rest => l ++ '\n' :: joinLines (l2 :: rest)

/-- The decimal digit characters used by Python's `str` of an `int`. -/
def digitChar : Nat → Char
  | 0 => '0'
  | 1 => '1'
  | 2 => '2'
  | 3 => '3'
  | 4 => '4'
  | 5 => '5'
  | 6 => '6'
  | 7 => '7'
  | 8 => '8'
  | 9 => '9'
  | _ + 10 => '0'

/-- `str(n)` for a non-negative Python int: decimal digits, most significant
first. -/
def natChars (n : Nat) : List Char :=
  if n = 0 then ['0'] else (Nat.digits 10 n).reverse.map digitChar

/-- `str(i)` for a Python int (a minus sign followed by the digits when
negative). -/
def intChars (i : Int) : List Char :=
  if i < 0 then '-' :: natChars (-i).toNat else natChars i.toNat

/-- One cell line of `export_compact_lines`
(`'    { "position": [x, y], "directions": [n, e, s, w] }'` plus the
trailing comma for every cell except the last). -/
def cellLine (c : Cell) (comma : List Char) : List Char :=
  "    \x7b \"position\": [".toList ++ intChars c.pos.1 ++ ", ".toList
    ++ intChars c.pos.2 ++ "], \"directions\": [".toList
    ++ natChars (dirGet c.dirs 0) ++ ", ".toList ++ natChars (dirGet c.dirs 1)
    ++ ", ".toList ++ natChars (dirGet c.dirs 2) ++ ", ".toList
    ++ natChars (dirGet c.dirs 3) ++ "] \x7d".toList ++ comma

/-- The per-cell lines (the Python loop appends a comma iff
`i < len(cells) - 1`). -/
def cellLines : List Cell → List (List Char)
  | [] => []
  | [c] => [cellLine c []]
  | c :: c2 :: rest => cellLine c [','] :: cellLines (c2 :: rest)

/-- `export_compact_lines(data)` of `app_streamlit_maze.py`: width, height,
start, end and one line per cell, joined with newlines.  The
`difficulty/loops` metadata is not written.  (The `maze_tool.py` variant
omits the start/end lines as well.) -/
def export_compact_lines (d : MazeData) : List Char :=
  joinLines
    (["\x7b".toList,
      "  \"width\": ".toList ++ intChars d.width ++ [','],
      "  \"height\": ".toList ++ intChars d.height ++ [','],
      "  \"start\": [".toList ++ intChars d.start.1 ++ ", ".toList
        ++ intChars d.start.2 ++ "],".toList,
      "  \"end\": [".toList ++ intChars d.endp.1 ++ ", ".toList
        ++ intChars d.endp.2 ++ "],".toList,
      "  \"cells\": [".toList]
      ++ cellLines d.cells
      ++ ["  ]".toList, "\x7d".toList])

/-- Modelled from the spec: the repository ships no parser for the canonical
text serialization, but the spec requires the format to round-trip, so a
reader of the format is modelled here.  Literal matcher: consume an exact
literal prefix or fail. -/
def expectLit : List Char → List Char → Option (List Char)
  | [], cs => some cs
  | _ :: _, [] => none
  | l :: ls, c :: cs => if c = l then expectLit ls cs else none

/-- Modelled from the spec: decimal digit value of a character. -/
def charDigit (c : Char) : Option Nat :=
  if '0' ≤ c ∧ c ≤ '9' then some (c.toNat - 48) else none

/-- Modelled from the spec: read a non-empty run of decimal digits. -/
def parseNat (cs : List Char) : Option (Nat × List Char) :=
  let ds := cs.takeWhile fun c => (charDigit c).isSome
  if ds.isEmpty then none
  else some (ds.foldl (fun a c => a * 10 + (charDigit c).getD 0) 0,
    cs.dropWhile fun c => (charDigit c).isSome)

/-- Modelled from the spec: read an optionally negated decimal integer. -/
def parseInt (cs : List Char) : Option (Int × List Char) :=
  match cs with
  | [] => none
  | c :: rest =>
    if c = '-' then (parseNat rest).map fun p => (-(p.1 : Int), p.2)
    else (parseNat (c :: rest)).map fun p => ((p.1 : Int), p.2)

/-- Modelled from the spec: read `x, y` — two comma-separated integers. -/
def parsePair (cs : List Char) : Option ((Int × Int) × List Char) :=
  match parseInt cs with
  | none => none
  | some (x, r1) =>
  match expectLit ", ".toList r1 with
  | none => none
  | some r2 =>
  match parseInt r2 with
  | none => none
  | some (y, r3) => some ((x, y), r3)

/-- Modelled from the spec: read `n, e, s, w` — four comma-separated
direction flags. -/
def parseDirs4 (cs : List Char) : Option (Dirs × List Char) :=
  match parseNat cs with
  | none => none
  | some (n, r1) =>
  match expectLit ", ".toList r1 with
  | none => none
  | some r2 =>
  match parseNat r2 with
  | none => none
  | some (e, r3) =>
  match expectLit ", ".toList r3 with
  | none => none
  | some r4 =>
  match parseNat r4 with
  | none => none
  | some (s, r5) =>
  match expectLit ", ".toList r5 with
  | none => none
  | some r6 =>
  match parseNat r6 with
  | none => none
  | some (w, r7) => some (⟨n, e, s, w⟩, r7)

/-- Modelled from the spec: read one cell line of the canonical format. -/
def parseCellLine (cs : List Char) : Option (Cell × List Char) :=
  match expectLit "    \x7b \"position\": [".toList cs with
  | none => none
  | some r1 =>
  match parsePair r1 with
  | none => none
  | some (p, r2) =>
  match expectLit "], \"directions\": [".toList r2 with
  | none => none
  | some r3 =>
  match parseDirs4 r3 with
  | none => none
  | some (ds, r4) =>
  match expectLit "] \x7d".toList r4 with
  | none => none
  | some r5 => some (⟨p, ds⟩, r5)

/-- Modelled from the spec: read the cell list up to the closing
`  ]` / `}` lines. -/
def parseCells : Nat → List Char → Option (List Cell × List Char)
  | 0, _ => none
  | fuel + 1, cs =>
    match expectLit ("  ]".toList ++ '\n' :: "\x7d".toList) cs with
    | some rest => some ([], rest)
    | none =>
      match parseCellLine cs with
      | none => none
      | some (c, r1) =>
      match expectLit [',', '\n'] r1 with
      | some rest2 =>
        match parseCells fuel rest2 with
        | none => none
        | some (cl, rest) => some (c :: cl, rest)
      | none =>
        match expectLit ('\n' :: "  ]".toList ++ '\n' :: "\x7d".toList) r1 with
        | none => none
        | some rest3 => some ([c], rest3)

/-- Modelled from the spec: parse the whole canonical text back into
width, height, start, end and the cell list, requiring the input to be
consumed completely.  The format carries no loop-factor field, so none can
be recovered. -/
def parseCompact (cs : List Char) :
    Option (Int × Int × (Int × Int) × (Int × Int) × List Cell) :=
  match expectLit ("\x7b".toList ++ '\n' :: "  \"width\": ".toList) cs with
  | none => none
  | some r1 =>
  match parseInt r1 with
  | none => none
  | some (w, r2) =>
  match expectLit (',' :: '\n' :: "  \"height\": ".toList) r2 with
  | none => none
  | some r3 =>
  match parseInt r3 with
  | none => none
  | some (h, r4) =>
  match expectLit (',' :: '\n' :: "  \"start\": [".toList) r4 with
  | none => none
  | some r5 =>
  match parsePair r5 with
  | none => none
  | some (st, r6) =>
  match expectLit ("],".toList ++ '\n' :: "  \"end\": [".toList) r6 with
  | none => none
  | some r7 =>
  match parsePair r7 with
  | none => none
  | some (en, r8) =>
  match expectLit ("],".toList ++ '\n' :: "  \"cells\": [".toList ++ ['\n']) r8 with
  | none => none
  | some r9 =>
  match parseCells (cs.length + 1) r9 with
  | none => none
  | some (cells, rest) =>
  if rest = [] then some (w, h, st, en, cells) else none

/-! ### The canonical-text round trip (C4) -/

lemma expectLit_append (l cs : List Char) : expectLit l (l ++ cs) = some cs := by
  induction l with
  | nil => rfl
  | cons c l ih => simp [expectLit, ih]

lemma charDigit_digitChar (d : Nat) (hd : d < 10) : charDigit (digitChar d) = some d := by
  interval_cases d <;> rfl

lemma charDigit_digitChar_isSome (d : Nat) : (charDigit (digitChar d)).isSome = true := by
  match d with
  | 0 => rfl
  | 1 => rfl
  | 2 => rfl
  | 3 => rfl
  | 4 => rfl
  | 5 => rfl
  | 6 => rfl
  | 7 => rfl
  | 8 => rfl
  | 9 => rfl
  | _ + 10 => rfl

lemma digitChar_ne_dash (d : Nat) : ¬ digitChar d = '-' := by
  match d with
  | 0 => decide
  | 1 => decide
  | 2 => decide
  | 3 => decide
  | 4 => decide
  | 5 => decide
  | 6 => decide
  | 7 => decide
  | 8 => decide
  | 9 => decide
  | n + 10 =>
      intro h
      rw [show digitChar (n + 10) = '0' from rfl] at h
      exact absurd h (by decide)

lemma natChars_ne_nil (n : Nat) : natChars n ≠ [] := by
  unfold natChars
  split
  · simp
  · simp [Nat.digits_ne_nil_iff_ne_zero, *]

lemma natChars_all_digits (n : Nat) :
    ∀ x ∈ natChars n, (charDigit x).isSome = true := by
  intro x hx
  unfold natChars at hx
  split at hx
  · simp at hx
    subst hx
    rfl
  · simp only [List.mem_map, List.mem_reverse] at hx
    obtain ⟨d, _, rfl⟩ := hx
    exact charDigit_digitChar_isSome d

lemma natChars_ne_dash (n : Nat) : ∀ x ∈ natChars n, ¬ x = '-' := by
  intro x hx
  unfold natChars at hx
  split at hx
  · simp at hx
    subst hx
    decide
  · simp only [List.mem_map, List.mem_reverse] at hx
    obtain ⟨d, _, rfl⟩ := hx
    exact digitChar_ne_dash d

lemma foldl_reverse_ofDigits (L : List Nat) (acc : Nat) :
    L.reverse.foldl (fun a d => a * 10 + d) acc = acc * 10 ^ L.length + Nat.ofDigits 10 L := by
  induction L generalizing acc with
  | nil => simp
  | cons d L ih =>
    rw [List.reverse_cons, List.foldl_append, ih]
    simp only [List.foldl_cons, List.foldl_nil, Nat.ofDigits_cons, List.length_cons, pow_succ]
    ring

lemma foldl_map_digitChar (ds : List Nat) (h : ∀ d ∈ ds, d < 10) (acc : Nat) :
    (ds.map digitChar).foldl (fun a c => a * 10 + (charDigit c).getD 0) acc
      = ds.foldl (fun a d => a * 10 + d) acc := by
  induction ds generalizing acc with
  | nil => rfl
  | cons d ds ih =>
    simp only [List.map_cons, List.foldl_cons,
      charDigit_digitChar d (h d (List.mem_cons_self d ds)), Option.getD_some]
    exact ih (fun x hx => h x (List.mem_cons_of_mem d hx)) _

/-- `true` iff the char list does not start with a decimal digit (so a
digit run parsed before it stops exactly at its head). -/
def noLeadDigit (cs : List Char) : Bool :=
  match cs with
  | [] => true
  | c :: _ => (charDigit c).isNone

lemma takeWhile_append_all (p : Char → Bool) (xs ys : List Char)
    (hx : ∀ x ∈ xs, p x = true)
    (hy : ∀ y t, ys = y :: t → p y = false) :
    (xs ++ ys).takeWhile p = xs ∧ (xs ++ ys).dropWhile p = ys := by
  induction xs with
  | nil =>
    cases ys with
    | nil => exact ⟨rfl, rfl⟩
    | cons y t =>
      have hpy : p y = false := hy y t rfl
      rw [List.nil_append, List.takeWhile_cons_of_neg (by simp [hpy]),
        List.dropWhile_cons_of_neg (by simp [hpy])]
      exact ⟨rfl, rfl⟩
  | cons x xs ih =>
    have hpx : p x = true := hx x (List.mem_cons_self x xs)
    have h2 := ih (fun a ha => hx a (List.mem_cons_of_mem x ha))
    rw [List.cons_append, List.takeWhile_cons_of_pos hpx, List.dropWhile_cons_of_pos hpx,
      h2.1, h2.2]
    exact ⟨rfl, rfl⟩

lemma parseNat_natChars (n : Nat) (rest : List Char) (h : noLeadDigit rest = true) :
    parseNat (natChars n ++ rest) = some (n, rest) := by
  have hy : ∀ y t, rest = y :: t → ((charDigit y).isSome) = false := by
    intro y t hyt
    subst hyt
    unfold noLeadDigit at h
    simpa [Option.isNone_iff_eq_none] using h
  have hsplit := takeWhile_append_all (fun c => (charDigit c).isSome) (natChars n) rest
    (natChars_all_digits n) hy
  unfold parseNat
  simp only [hsplit.1, hsplit.2]
  have hne : (natChars n).isEmpty = false := by
    cases hnc : natChars n with
    | nil => exact absurd hnc (natChars_ne_nil n)
    | cons a t => rfl
  rw [hne]
  simp only [Bool.false_eq_true, if_false, Option.some.injEq, Prod.mk.injEq, and_true]
  by_cases h0 : n = 0
  · subst h0
    rfl
  · unfold natChars
    rw [if_neg h0]
    rw [foldl_map_digitChar _ (fun d hd => Nat.digits_lt_base (by norm_num) (List.mem_reverse.mp hd))]
    rw [foldl_reverse_ofDigits]
    simp [Nat.ofDigits_digits]

lemma parseInt_intChars (i : Int) (rest : List Char) (h : noLeadDigit rest = true) :
    parseInt (intChars i ++ rest) = some (i, rest) := by
  unfold intChars
  split
  · next hi =>
    rw [List.cons_append]
    unfold parseInt
    dsimp only
    rw [if_pos rfl, parseNat_natChars _ _ h, Option.map_some']
    dsimp only
    have h1 : (((-i).toNat : Nat) : Int) = -i := by omega
    rw [h1, neg_neg]
  · next hi =>
    obtain ⟨c, cs, hc⟩ : ∃ c cs, natChars i.toNat = c :: cs := by
      cases hnc : natChars i.toNat with
      | nil => exact absurd hnc (natChars_ne_nil _)
      | cons a t => exact ⟨a, t, rfl⟩
    rw [hc, List.cons_append]
    unfold parseInt
    dsimp only
    rw [if_neg (natChars_ne_dash i.toNat c (hc ▸ List.mem_cons_self c cs))]
    rw [← List.cons_append, ← hc, parseNat_natChars _ _ h, Option.map_some']
    dsimp only
    have h1 : ((i.toNat : Nat) : Int) = i := by omega
    rw [h1]

lemma parsePair_pair (x y : Int) (rest : List Char) (h : noLeadDigit rest = true) :
    parsePair (intChars x ++ (", ".toList ++ (intChars y ++ rest))) = some ((x, y), rest) := by
  unfold parsePair
  rw [parseInt_intChars x _ (by rfl)]
  dsimp only
  rw [expectLit_append]
  dsimp only
  rw [parseInt_intChars y rest h]

lemma parseDirs4_natChars (dn de ds dw : Nat) (rest : List Char) (h : noLeadDigit rest = true) :
    parseDirs4 (natChars dn ++ (", ".toList ++ (natChars de ++ (", ".toList ++
      (natChars ds ++ (", ".toList ++ (natChars dw ++ rest)))))))
      = some (⟨dn, de, ds, dw⟩, rest) := by
  unfold parseDirs4
  rw [parseNat_natChars dn _ (by rfl)]
  dsimp only
  rw [expectLit_append]
  dsimp only
  rw [parseNat_natChars de _ (by rfl)]
  dsimp only
  rw [expectLit_append]
  dsimp only
  rw [parseNat_natChars ds _ (by rfl)]
  dsimp only
  rw [expectLit_append]
  dsimp only
  rw [parseNat_natChars dw rest h]

lemma parseCellLine_cellLine (c : Cell) (comma rest : List Char) :
    parseCellLine (cellLine c comma ++ rest) = some (c, comma ++ rest) := by
  obtain ⟨⟨x, y⟩, dn, de, ds, dw⟩ := c
  have e1 : cellLine ⟨(x, y), ⟨dn, de, ds, dw⟩⟩ comma ++ rest
      = "    \x7b \"position\": [".toList ++ (intChars x ++ (", ".toList ++ (intChars y ++
        ("], \"directions\": [".toList ++ (natChars dn ++ (", ".toList ++ (natChars de ++
        (", ".toList ++ (natChars ds ++ (", ".toList ++ (natChars dw ++
        ("] \x7d".toList ++ (comma ++ rest))))))))))))) := by
    simp [cellLine, dirGet, List.append_assoc]
  rw [e1]
  unfold parseCellLine
  rw [expectLit_append]
  dsimp only
  rw [parsePair_pair x y _ (by rfl)]
  dsimp only
  rw [expectLit_append]
  dsimp only
  rw [parseDirs4_natChars dn de ds dw _ (by rfl)]
  dsimp only
  rw [expectLit_append]

lemma joinLines_cons (l : List Char) (ls : List (List Char)) (h : ls ≠ []) :
    joinLines (l :: ls) = l ++ '\n' :: joinLines ls := by
  cases ls with
  | nil => exact absurd rfl h
  | cons a t => rfl

lemma expectLit_close_cellLine (c : Cell) (comma t : List Char) :
    expectLit ("  ]".toList ++ '\n' :: "\x7d".toList) (cellLine c comma ++ t) = none := rfl

lemma expectLit_self (l : List Char) : expectLit l l = some [] := by
  have := expectLit_append l []
  rwa [List.append_nil] at this

lemma parseCells_joinLines (cells : List Cell) (fuel : Nat) (hf : cells.length < fuel) :
    parseCells fuel (joinLines (cellLines cells ++ ["  ]".toList, "\x7d".toList]))
      = some (cells, []) := by
  induction cells generalizing fuel with
  | nil =>
    cases fuel with
    | zero => omega
    | succ f =>
      show parseCells (f + 1) (joinLines ["  ]".toList, "\x7d".toList]) = some ([], [])
      unfold parseCells
      rw [show joinLines ["  ]".toList, "\x7d".toList]
          = "  ]".toList ++ '\n' :: "\x7d".toList from rfl]
      rw [expectLit_self]
  | cons c cells ih =>
    cases fuel with
    | zero => omega
    | succ f =>
      cases cells with
      | nil =>
        show parseCells (f + 1) (joinLines [cellLine c [], "  ]".toList, "\x7d".toList])
          = some ([c], [])
        rw [show joinLines [cellLine c [], "  ]".toList, "\x7d".toList]
            = cellLine c [] ++ '\n' :: ("  ]".toList ++ '\n' :: "\x7d".toList) from rfl]
        unfold parseCells
        rw [expectLit_close_cellLine]
        rw [parseCellLine_cellLine c [] ('\n' :: ("  ]".toList ++ '\n' :: "\x7d".toList))]
        dsimp only
        rw [show expectLit [',', '\n']
            ([] ++ '\n' :: ("  ]".toList ++ '\n' :: "\x7d".toList)) = none from rfl]
        rw [show ([] ++ '\n' :: ("  ]".toList ++ '\n' :: "\x7d".toList))
            = ('\n' :: "  ]".toList ++ '\n' :: "\x7d".toList) ++ [] from by simp]
        rw [expectLit_append]
      | cons c2 cells =>
        have hne : cellLines (c2 :: cells) ++ ["  ]".toList, "\x7d".toList] ≠ [] := by
          simp
        rw [show cellLines (c :: c2 :: cells) = cellLine c [','] :: cellLines (c2 :: cells)
            from rfl]
        rw [List.cons_append, joinLines_cons _ _ hne]
        unfold parseCells
        rw [expectLit_close_cellLine]
        rw [parseCellLine_cellLine c [',']]
        dsimp only
        have hel := expectLit_append [',', '\n']
          (joinLines (cellLines (c2 :: cells) ++ ["  ]".toList, "\x7d".toList]))
        rw [show ([','] ++ '\n' :: joinLines (cellLines (c2 :: cells) ++
            ["  ]".toList, "\x7d".toList])) = [',', '\n'] ++ joinLines (cellLines (c2 :: cells) ++
            ["  ]".toList, "\x7d".toList]) from rfl, hel]
        dsimp only
        rw [ih f (by simp at hf ⊢; omega)]

lemma cellLines_length (cells : List Cell) : (cellLines cells).length = cells.length := by
  induction cells with
  | nil => rfl
  | cons c cells ih =>
    cases cells with
    | nil => rfl
    | cons c2 t =>
      rw [show cellLines (c :: c2 :: t) = cellLine c [','] :: cellLines (c2 :: t) from rfl]
      simp only [List.length_cons]
      rw [ih]
      simp

lemma joinLines_length (ls : List (List Char)) : ls.length ≤ (joinLines ls).length + 1 := by
  induction ls with
  | nil => simp [joinLines]
  | cons l ls ih =>
    cases ls with
    | nil => simp [joinLines]
    | cons l2 t =>
      rw [joinLines_cons _ _ (by simp)]
      simp only [List.length_cons, List.length_append] at ih ⊢
      omega

/-- C4 (amended): serializing a maze with `export_compact_lines` and parsing
the text back reconstructs the width, the height, the start and end
coordinates and every cell with its four passage flags — everything except
the loop-factor metadata, which the canonical format does not carry. -/
theorem parse_export (d : MazeData) :
    parseCompact (export_compact_lines d)
      = some (d.width, d.height, d.start, d.endp, d.cells) := by
  obtain ⟨w, h, cells, ⟨sx, sy⟩, ⟨ex, ey⟩, lf⟩ := d
  have etext : export_compact_lines ⟨w, h, cells, (sx, sy), (ex, ey), lf⟩
      = ("\x7b".toList ++ '\n' :: "  \"width\": ".toList) ++ (intChars w ++
        ((',' :: '\n' :: "  \"height\": ".toList) ++ (intChars h ++
        ((',' :: '\n' :: "  \"start\": [".toList) ++ (intChars sx ++ (", ".toList ++ (intChars sy ++
        (("],".toList ++ '\n' :: "  \"end\": [".toList) ++ (intChars ex ++ (", ".toList ++ (intChars ey ++
        (("],".toList ++ '\n' :: "  \"cells\": [".toList ++ ['\n']) ++
        joinLines (cellLines cells ++ ["  ]".toList, "\x7d".toList]))))))))))))) := by
    simp [export_compact_lines, joinLines_cons, List.append_assoc]
  rw [etext]
  unfold parseCompact
  rw [expectLit_append]
  dsimp only
  rw [parseInt_intChars w _ (by rfl)]
  dsimp only
  rw [expectLit_append]
  dsimp only
  rw [parseInt_intChars h _ (by rfl)]
  dsimp only
  rw [expectLit_append]
  dsimp only
  rw [parsePair_pair sx sy _ (by rfl)]
  dsimp only
  rw [expectLit_append]
  dsimp only
  rw [parsePair_pair ex ey _ (by rfl)]
  dsimp only
  rw [expectLit_append]
  dsimp only
  rw [parseCells_joinLines cells _ (by
    have h1 := joinLines_length (cellLines cells ++ ["  ]".toList, "\x7d".toList])
    rw [List.length_append, cellLines_length] at h1
    simp only [List.length_append, List.length_cons, List.length_nil] at h1 ⊢
    omega)]
  dsimp only
  rw [if_pos rfl]

/-- C4 counterexample: two mazes that differ only in the loop-factor
metadata have identical canonical serializations, so no parser can
reconstruct the loop factor from the text. -/
theorem export_drops_loop_factor :
    ((⟨1, 1, [⟨(0, 0), ⟨0, 0, 0, 0⟩⟩], (0, 0), (0, 0), 0⟩ : MazeData).loops
        ≠ (⟨1, 1, [⟨(0, 0), ⟨0, 0, 0, 0⟩⟩], (0, 0), (0, 0), (1 : Rat) / 2⟩ : MazeData).loops)
    ∧ export_compact_lines ⟨1, 1, [⟨(0, 0), ⟨0, 0, 0, 0⟩⟩], (0, 0), (0, 0), 0⟩
        = export_compact_lines ⟨1, 1, [⟨(0, 0), ⟨0, 0, 0, 0⟩⟩], (0, 0), (0, 0), (1 : Rat) / 2⟩ := by
  constructor
  · norm_num
  · rfl
